import Mathlib

/-!
A verification model of the Audionodes native engine core
(`src/native/audionodes.cpp`): the graph builder run by
`audionodes_finish_tree_update` (sink seeding, backward reachability BFS,
Kahn-style topological pass, cycle check, link resolution), the
connect/disconnect callback passes, deferred node deletion, the public
node operations, `send_message`, and the sample conversion performed in
`audio_callback`.

Conventions of the embedding:
* Nodes are addressed by their `node_uid` (a `Nat`); `node_storage` is an
  association list `List (Nat × Node)` whose order models the iteration
  order of the C++ `std::map` (ascending keys in the real program; the
  theorems quantify over arbitrary orders, which subsumes the sorted one).
* C++ `std::map::operator[]` lookups with an absent key default-construct;
  where the C++ program would dereference a null `Node*` (undefined
  behaviour) the model totalises with `defaultNode` and the corresponding
  theorems carry explicit well-formedness hypotheses.
* The two worklist loops of the builder grow their queue while iterating.
  They are embedded with explicit fuel `storage.length + links.length`,
  which is an upper bound on the number of iterations the C++ loops can
  perform (each iteration consumes one queue slot; the queue holds the
  seeded sinks plus at most one re-push per distinct link source, see
  `bfsLoop_complete` / `kahnLoop_complete`), so the fueled loop always
  reaches the loop's exit condition exactly like the source.
* Floating point samples are modelled by `ℚ`; every sample value appearing
  in the claims is exactly representable and exactly computed in binary
  floating point, so the model is faithful on them.
-/

namespace Audionodes

/-- One applied control message, as recorded on a node. `Modelled from the
spec:` the node-internal effect of `set_input_value`, `set_property_value`
and `receive_binary` (node implementations are outside `src/`); the spec
says these "apply a deferred control-thread update", which we model by
recording the update on the node. -/
inductive MsgPayload
  | audio_input (slot : Nat) (value : ℚ)
  | property (slot : Nat) (value : Int)
  | binary (slot : Nat) (length : Int)
deriving DecidableEq, Repr

/-- The observable node attributes used by `audionodes.cpp`:
`get_is_sink()`, `get_input_count()`, `mark_deletion`, `mark_connected`,
`_tmp_connected`, plus the record of applied control messages. -/
structure Node where
  is_sink : Bool
  input_count : Nat
  mark_deletion : Bool
  mark_connected : Bool
  tmp_connected : Bool
  applied : List MsgPayload
deriving DecidableEq, Repr

/-- `NodeTree::ConstructionLink` from the source: an edge request. -/
structure ConstructionLink where
  from_node : Nat
  to_node : Nat
  from_socket : Nat
  to_socket : Nat
deriving DecidableEq, Repr

/-- `NodeTree::Link` (a resolved link). `Modelled from the spec:` the
`NodeTree` class itself is outside `src/`; the constructor call
`NodeTree::Link(true, node_index[...], link.from_socket)` in
`audionodes.cpp` fixes the field order, and the spec fixes the
default-constructed value to `present = false`. -/
structure RLink where
  present : Bool
  source_position : Nat
  source_socket : Nat
deriving DecidableEq, Repr

/-- The executable graph: evaluation order plus one resolved-link row per
position, exactly the two vectors handed to the `NodeTree` constructor. -/
structure NodeTree where
  order : List Nat
  rlinks : List (List RLink)
deriving DecidableEq, Repr

/-- `node_storage.find(id)`, returning the stored node if any. -/
def lookupNode (storage : List (Nat × Node)) (id : Nat) : Option Node :=
  (storage.find? (fun p => p.1 == id)).map (fun p => p.2)

/-- Totalising default for `std::map::operator[]` on an absent key (the
C++ program would hold a null `Node*` there; dereferencing it is
undefined behaviour, so the value never matters on well-formed inputs). -/
def defaultNode : Node := ⟨false, 0, false, false, false, []⟩

/-- `node_storage[id]` dereferenced, totalised by `defaultNode`. -/
def getNodeD (storage : List (Nat × Node)) (id : Nat) : Node :=
  (lookupNode storage id).getD defaultNode

/-- `node_storage[id]->mark_deletion`. -/
def isDeleted (storage : List (Nat × Node)) (id : Nat) : Bool :=
  (getNodeD storage id).mark_deletion

/-- The keys of `node_storage`. -/
def storageKeys (storage : List (Nat × Node)) : List Nat :=
  storage.map (fun p => p.1)

/-- `links_to[id]`: the construction links into `id`, in batch order
(grouping by `push_back` preserves relative order, so this is a filter). -/
def linksTo (links : List ConstructionLink) (id : Nat) : List ConstructionLink :=
  links.filter (fun l => l.to_node == id)

/-- Number of links from `x` to `y` in the batch (edge multiplicity). -/
def mult (links : List ConstructionLink) (x y : Nat) : Nat :=
  (links.filter (fun l => l.from_node == x && l.to_node == y)).length

/-- Number of links in `ls` whose source is `x`. -/
def cntFrom (x : Nat) (ls : List ConstructionLink) : Nat :=
  (ls.filter (fun l => l.from_node == x)).length

/-- Total multiplicity of links from `x` into the members of `S`. -/
def tpSum (links : List ConstructionLink) (x : Nat) (S : List Nat) : Nat :=
  (S.map (fun y => mult links x y)).sum

/-- The members of `tpq` not in `P` (the "not yet processed" part). -/
def outside (tpq P : List Nat) : List Nat :=
  tpq.filter (fun z => !(decide (z ∈ P)))

/-- Phase A of `audionodes_finish_tree_update`: the ids collected into
`marked_for_deletion`, in storage iteration order. -/
def markedOf (storage : List (Nat × Node)) : List Nat :=
  (storage.filter (fun p => p.2.mark_deletion)).map (fun p => p.1)

/-- Phase A: the non-deleted sinks seeded into both `q` and
`to_process`/`to_process_q`, in storage iteration order. -/
def seedsOf (storage : List (Nat × Node)) : List Nat :=
  (storage.filter (fun p => !p.2.mark_deletion && p.2.is_sink)).map (fun p => p.1)

/-- State of the reachability BFS: `to_process_q` (whose members are the
set `to_process`), the loop index `i`, and `links_from_count`. -/
structure BState where
  tpq : List Nat
  i : Nat
  count : Nat → Int

/-- Inner loop of the reachability pass: `for (auto link : links_to[id])`
with the deleted-source skip, the `links_from_count` increment, and the
guarded insertion into `to_process`/`to_process_q`. -/
def bfsProcessLinks (storage : List (Nat × Node)) :
    List ConstructionLink → List Nat → (Nat → Int) → List Nat × (Nat → Int)
  | [], tpq, count => (tpq, count)
  | l :: rest, tpq, count =>
    if isDeleted storage l.from_node then bfsProcessLinks storage rest tpq count
    else
      let count' := fun x => if x = l.from_node then count x + 1 else count x
      if l.from_node ∈ tpq then bfsProcessLinks storage rest tpq count'
      else bfsProcessLinks storage rest (tpq ++ [l.from_node]) count'

/-- Outer loop of the reachability pass
(`for (size_t i = 0; i < to_process_q.size(); ++i)`), with fuel. -/
def bfsLoop (storage : List (Nat × Node)) (links : List ConstructionLink) :
    Nat → BState → BState
  | 0, st => st
  | fuel + 1, st =>
    if h : st.i < st.tpq.length then
      let pr := bfsProcessLinks storage (linksTo links (st.tpq.get ⟨st.i, h⟩)) st.tpq st.count
      bfsLoop storage links fuel ⟨pr.1, st.i + 1, pr.2⟩
    else st

/-- Fuel bound for both worklist loops (see the header comment). -/
def loopFuel (storage : List (Nat × Node)) (links : List ConstructionLink) : Nat :=
  storage.length + links.length

/-- The whole reachability pass, started from the seeded sinks with all
`links_from_count` entries at their default 0. -/
def bfsRun (storage : List (Nat × Node)) (links : List ConstructionLink) : BState :=
  bfsLoop storage links (loopFuel storage links) ⟨seedsOf storage, 0, fun _ => 0⟩

/-- State of the topological pass: the vector `q`, the loop index, and the
shared `links_from_count`. -/
structure KState where
  q : List Nat
  i : Nat
  count : Nat → Int

/-- Inner loop of the topological pass: skip sources outside `to_process`,
decrement `links_from_count`, push when the count reaches zero. -/
def kahnProcessLinks (tpq : List Nat) :
    List ConstructionLink → List Nat → (Nat → Int) → List Nat × (Nat → Int)
  | [], q, count => (q, count)
  | l :: rest, q, count =>
    if l.from_node ∈ tpq then
      let count' := fun x => if x = l.from_node then count x - 1 else count x
      if count' l.from_node = 0 then kahnProcessLinks tpq rest (q ++ [l.from_node]) count'
      else kahnProcessLinks tpq rest q count'
    else kahnProcessLinks tpq rest q count

/-- Outer loop of the topological pass
(`for (size_t i = 0; i < q.size(); ++i)`), with fuel. -/
def kahnLoop (links : List ConstructionLink) (tpq : List Nat) :
    Nat → KState → KState
  | 0, st => st
  | fuel + 1, st =>
    if h : st.i < st.q.length then
      let pr := kahnProcessLinks tpq (linksTo links (st.q.get ⟨st.i, h⟩)) st.q st.count
      kahnLoop links tpq fuel ⟨pr.1, st.i + 1, pr.2⟩
    else st

/-- The whole topological pass: `q` restarts from the seeded sinks, the
counts continue from the reachability pass. -/
def kahnRun (storage : List (Nat × Node)) (links : List ConstructionLink)
    (tpq : List Nat) (count : Nat → Int) : KState :=
  kahnLoop links tpq (loopFuel storage links) ⟨seedsOf storage, 0, count⟩

/-- One row of `final_links`: start from `input_count` default links and
overwrite socket `to_socket` for every incoming link whose source is in
`to_process` (an out-of-range socket write is kept as the no-op `set`). -/
def resolveRow (tpq : List Nat) (nodeIndex : Nat → Nat) :
    List ConstructionLink → List RLink → List RLink
  | [], row => row
  | l :: rest, row =>
    if l.from_node ∈ tpq then
      resolveRow tpq nodeIndex rest
        (row.set l.to_socket ⟨true, nodeIndex l.from_node, l.from_socket⟩)
    else resolveRow tpq nodeIndex rest row

/-- The final collection loop: walk the reversed order, record each id's
position in `node_index` (a `std::map<node_uid,size_t>` defaulting to 0),
and resolve that id's row. -/
def finalRows (storage : List (Nat × Node)) (links : List ConstructionLink)
    (tpq : List Nat) : (Nat → Nat) → Nat → List Nat → List (List RLink)
  | _, _, [] => []
  | nidx, i, id :: rest =>
    let nidx' := fun x => if x = id then i else nidx x
    resolveRow tpq nidx' (linksTo links id)
        (List.replicate (getNodeD storage id).input_count ⟨false, 0, 0⟩)
      :: finalRows storage links tpq nidx' (i + 1) rest

/-- Phases A-E of `audionodes_finish_tree_update`: build the new
executable graph, or `none` when the cycle check
`q.size() < to_process.size()` fires. -/
def buildResult (storage : List (Nat × Node)) (links : List ConstructionLink) :
    Option NodeTree :=
  let b := bfsRun storage links
  let k := kahnRun storage links b.tpq b.count
  if k.q.length < b.tpq.length then none
  else some ⟨k.q.reverse, finalRows storage links b.tpq (fun _ => 0) 0 k.q.reverse⟩

/-- Set a node's `mark_deletion` flag (the only mutation done by
`audionodes_remove_node`). -/
def setDeletion (n : Node) : Node :=
  ⟨n.is_sink, n.input_count, true, n.mark_connected, n.tmp_connected, n.applied⟩

/-- The per-node effect of the connect pass: after visiting a node of the
final order it is connected and `_tmp_connected` is set (an already
connected node keeps its flag). -/
def markVisit (n : Node) : Node :=
  ⟨n.is_sink, n.input_count, n.mark_deletion, true, true, n.applied⟩

/-- The per-node effect of the disconnect pass: a connected node that was
not visited loses `mark_connected`; `_tmp_connected` is always cleared. -/
def dcUpdate (n : Node) : Node :=
  ⟨n.is_sink, n.input_count, n.mark_deletion,
    n.tmp_connected && n.mark_connected, false, n.applied⟩

/-- In-place update of the node stored under `id` (a write through the
`Node*` held by the map; absent keys are untouched). -/
def updateNode (storage : List (Nat × Node)) (id : Nat) (f : Node → Node) :
    List (Nat × Node) :=
  storage.map (fun p => if p.1 = id then (p.1, f p.2) else p)

/-- The connect-callback pass over `final_order`: fires `connect_callback`
on every visited node whose `mark_connected` was false (returning the ids
fired, in order), sets `mark_connected` and `_tmp_connected`. -/
def connectPass (storage : List (Nat × Node)) :
    List Nat → List (Nat × Node) × List Nat
  | [] => (storage, [])
  | id :: rest =>
    let fired := !(getNodeD storage id).mark_connected
    let pr := connectPass (updateNode storage id markVisit) rest
    (pr.1, (if fired then [id] else []) ++ pr.2)

/-- The disconnect-callback pass over all of `node_storage`: per entry,
fire `disconnect_callback` when `!_tmp_connected && mark_connected`, then
clear `_tmp_connected`. Each entry is handled independently, so the loop
is a map plus a filter in storage order. -/
def disconnectPass (storage : List (Nat × Node)) :
    List (Nat × Node) × List Nat :=
  (storage.map (fun p => (p.1, dcUpdate p.2)),
   (storage.filter (fun p => !p.2.tmp_connected && p.2.mark_connected)).map (fun p => p.1))

/-- The cleanup loop: erase every id of `marked_for_deletion` from
`node_storage` (each erased node is also freed). -/
def erasePass (storage : List (Nat × Node)) (marked : List Nat) :
    List (Nat × Node) :=
  marked.foldl (fun s id => s.filter (fun p => p.1 != id)) storage

/-- A pending message: target node id plus payload (the C++ `Message`
stores the target as a `Node*`; ids name the same nodes). -/
structure Message where
  node : Nat
  payload : MsgPayload
deriving DecidableEq, Repr

/-- Whether the message owns a binary payload buffer. -/
def hasBinary (m : Message) : Bool :=
  match m.payload with
  | MsgPayload.binary _ _ => true
  | _ => false

/-- The whole mutable engine state touched by the FFI entry points:
`node_storage`, `node_storage_counter`, `main_node_tree`, `msg_queue`,
and the node-type registry (creators modelled by prototype nodes,
`Modelled from the spec:` the factory map is filled by node type
registration code outside `src/`). -/
structure EngineState where
  storage : List (Nat × Node)
  counter : Nat
  tree : Option NodeTree
  queue : List Message
  node_types : List (String × Node)
deriving DecidableEq, Repr

/-- Observable events of `audionodes_finish_tree_update`, in program
order: connect callbacks, the graph installation (the locked pointer
swap), disconnect callbacks, node frees, or the loop-detected diagnostic. -/
inductive BEvent
  | connect (id : Nat)
  | disconnect (id : Nat)
  | install
  | free (id : Nat)
  | errorLoop
deriving DecidableEq, Repr

/-- `audionodes_finish_tree_update`: build (phases A-E); on a detected
loop report and return with nothing changed; otherwise run the connect
pass, install the new tree, run the disconnect pass, and erase the nodes
marked for deletion. Returns the new state, the event trace, and whether
a new graph was installed. -/
def audionodes_finish_tree_update (st : EngineState)
    (links : List ConstructionLink) : EngineState × List BEvent × Bool :=
  match buildResult st.storage links with
  | none => (st, [BEvent.errorLoop], false)
  | some nt =>
    let marked := markedOf st.storage
    let c := connectPass st.storage nt.order
    let d := disconnectPass c.1
    (⟨erasePass d.1 marked, st.counter, some nt, st.queue, st.node_types⟩,
     c.2.map BEvent.connect ++ [BEvent.install]
       ++ d.2.map BEvent.disconnect ++ marked.map BEvent.free,
     true)

/-- Observable events of the node operations. -/
inductive OEvent
  | report_unknown (id : Nat)
  | report_queue_full
  | sleep
  | free_binary
  | report_invalid_type
  | ub_deref (id : Nat)
deriving DecidableEq, Repr

/-- `msg.apply()`: dispatch the payload to the target node's setter
(recorded on the node, see `MsgPayload`). -/
def applyMessage (storage : List (Nat × Node)) (msg : Message) :
    List (Nat × Node) :=
  updateNode storage msg.node (fun n =>
    ⟨n.is_sink, n.input_count, n.mark_deletion, n.mark_connected,
      n.tmp_connected, n.applied ++ [msg.payload]⟩)

/-- `CircularBuffer<Message, 256>`: the queue capacity. -/
def queue_capacity : Nat := 256

/-- Number of sleeps executed by the retry loop of `send_message`:
`fullAt t` is the value the `msg_queue.full()` read observes after `t`
sleeps (the queue is drained concurrently by the audio thread, so the
reads are an environment oracle; reads not separated by a sleep observe
the same value). The loop sleeps while full, at most 10 times. -/
def sleepCount (fullAt : Nat → Bool) : Nat :=
  ((List.range 10).takeWhile fullAt).length

/-- `send_message`: if the target node is connected, sleep while the
queue is full (bounded retries), then either drop the message — reporting
the failure and freeing an owned binary payload — or push it; if the
target is not connected, apply the message directly on this thread. -/
def send_message (fullAt : Nat → Bool) (st : EngineState) (msg : Message) :
    EngineState × List OEvent :=
  if (getNodeD st.storage msg.node).mark_connected then
    if fullAt (sleepCount fullAt) then
      (st, List.replicate (sleepCount fullAt) OEvent.sleep ++ [OEvent.report_queue_full]
        ++ (if hasBinary msg then [OEvent.free_binary] else []))
    else
      (⟨st.storage, st.counter, st.tree, st.queue ++ [msg], st.node_types⟩,
       List.replicate (sleepCount fullAt) OEvent.sleep)
  else
    (⟨applyMessage st.storage msg, st.counter, st.tree, st.queue, st.node_types⟩, [])

/-- The single-threaded instantiation of the `msg_queue.full()` oracle:
no concurrent drain, every read sees the current queue length. -/
def stdFull (st : EngineState) : Nat → Bool :=
  fun _ => decide (queue_capacity ≤ st.queue.length)

/-- `audionodes_remove_node`: report on an unknown id, otherwise only set
the node's `mark_deletion` flag. -/
def audionodes_remove_node (st : EngineState) (id : Nat) :
    EngineState × List OEvent :=
  if (lookupNode st.storage id).isSome then
    (⟨updateNode st.storage id setDeletion, st.counter, st.tree, st.queue,
        st.node_types⟩, [])
  else (st, [OEvent.report_unknown id])

/-- `audionodes_node_exists`. -/
def audionodes_node_exists (st : EngineState) (id : Nat) : Bool :=
  (lookupNode st.storage id).isSome

/-- `audionodes_update_node_input_value`: report on an unknown id,
otherwise route through `send_message`. -/
def audionodes_update_node_input_value (st : EngineState) (id : Nat)
    (input_index : Nat) (value : ℚ) : EngineState × List OEvent :=
  if (lookupNode st.storage id).isSome then
    send_message (stdFull st) st ⟨id, MsgPayload.audio_input input_index value⟩
  else (st, [OEvent.report_unknown id])

/-- `audionodes_update_node_property_value`: report on an unknown id,
otherwise route through `send_message`. -/
def audionodes_update_node_property_value (st : EngineState) (id : Nat)
    (enum_index : Nat) (value : Int) : EngineState × List OEvent :=
  if (lookupNode st.storage id).isSome then
    send_message (stdFull st) st ⟨id, MsgPayload.property enum_index value⟩
  else (st, [OEvent.report_unknown id])

/-- `audionodes_send_node_binary_data`: report on an unknown id, otherwise
copy the buffer and route through `send_message`. -/
def audionodes_send_node_binary_data (st : EngineState) (id : Nat)
    (slot : Nat) (length : Int) : EngineState × List OEvent :=
  if (lookupNode st.storage id).isSome then
    send_message (stdFull st) st ⟨id, MsgPayload.binary slot length⟩
  else (st, [OEvent.report_unknown id])

/-- `std::map` insert-or-assign keyed by id (ascending key order). -/
def storageInsert (id : Nat) (n : Node) :
    List (Nat × Node) → List (Nat × Node)
  | [] => [(id, n)]
  | p :: rest =>
    if id < p.1 then (id, n) :: p :: rest
    else if id = p.1 then (id, n) :: rest
    else p :: storageInsert id n rest

/-- `audionodes_create_node`: allocate the next uid (the counter advances
even on failure, as in the source), then either store a node built by the
registered creator or report the invalid type and return no id. -/
def audionodes_create_node (st : EngineState) (type : String) :
    EngineState × Option Nat × List OEvent :=
  let id := st.counter
  match (st.node_types.find? (fun p => p.1 == type)).map (fun p => p.2) with
  | some proto =>
    (⟨storageInsert id proto st.storage, st.counter + 1, st.tree, st.queue,
        st.node_types⟩, some id, [])
  | none =>
    (⟨st.storage, st.counter + 1, st.tree, st.queue, st.node_types⟩,
     none, [OEvent.report_invalid_type])

/-- `copy_input_values`. `Modelled from the spec:` node implementations
are outside `src/`; the spec says it "copies externally-set
scalar/property state, not internal processing state", modelled by
copying the applied-message record. -/
def copy_input_values (dst src : Node) : Node :=
  ⟨dst.is_sink, dst.input_count, dst.mark_deletion, dst.mark_connected,
    dst.tmp_connected, src.applied⟩

/-- Result of `audionodes_copy_node`: the new id, the invalid-type
failure, or the undefined behaviour reached when the source id is absent
(the C++ dereferences the null `Node*` freshly default-inserted by
`node_storage[old_id]`). -/
inductive CopyOutcome
  | ok (id : Nat)
  | invalid_type
  | crashed
deriving DecidableEq, Repr

/-- `audionodes_copy_node`: create a node of the given type first (no
existence check on `old_id`!), then copy the input values from the stored
source; with an absent source the copy call is undefined behaviour, which
the model marks `crashed` after the creation already happened. -/
def audionodes_copy_node (st : EngineState) (old_id : Nat) (type : String) :
    EngineState × CopyOutcome × List OEvent :=
  let c := audionodes_create_node st type
  match c.2.1 with
  | none => (c.1, CopyOutcome.invalid_type, c.2.2)
  | some new_id =>
    match lookupNode st.storage old_id with
    | some src =>
      (⟨updateNode c.1.storage new_id (fun dst => copy_input_values dst src),
          c.1.counter, c.1.tree, c.1.queue, c.1.node_types⟩,
       CopyOutcome.ok new_id, [])
    | none => (c.1, CopyOutcome.crashed, [OEvent.ub_deref old_id])

/-- `(1 << 15) - 1`, the 16-bit maximum written by `audio_callback`. -/
def maximum_value : Int := 32767

/-- `-(1 << 15)`, the 16-bit minimum written by `audio_callback`. -/
def minimum_value : Int := -32768

/-- C++ float-to-integer conversion truncates toward zero (for a negative
value this is the ceiling, written through the floor of the negation). -/
def truncToInt (q : ℚ) : Int :=
  if 0 ≤ q then q.floor else -((-q).floor)

/-- The per-sample conversion in `audio_callback`:
`result[i] < -1` clamps to the minimum, `result[i] >= 1` clamps to the
maximum, otherwise `stream[i] = result[i] * maximum_value`. -/
def sample_to_output (v : ℚ) : Int :=
  if v < -1 then minimum_value
  else if 1 ≤ v then maximum_value
  else truncToInt (v * 32767)

/-- The conversion loop of `audio_callback` over a whole sample block. -/
def block_to_output (c : List ℚ) : List Int :=
  c.map sample_to_output

/-- `x` can influence a non-deleted sink: either `x` is itself a stored,
non-deleted sink, or a batch link leads from `x` (not marked deleted) to a
node that can. This is the specification-level notion of "reachable from a
sink" that the reachability pass computes. -/
inductive Reach (storage : List (Nat × Node)) (links : List ConstructionLink) : Nat → Prop
  | sink (id : Nat) (n : Node) : lookupNode storage id = some n →
      n.mark_deletion = false → n.is_sink = true → Reach storage links id
  | step (l : ConstructionLink) : l ∈ links → isDeleted storage l.from_node = false →
      Reach storage links l.to_node → Reach storage links l.from_node

/-- Well-formed storage: the `std::map` holds each uid at most once. -/
def keysNodup (storage : List (Nat × Node)) : Prop :=
  (storageKeys storage).Nodup

/-- Every link source of the batch names a stored node (the invariant the
front end is supposed to maintain; `audionodes_add_tree_update_link` only
warns on violations). -/
def validSources (storage : List (Nat × Node)) (links : List ConstructionLink) : Prop :=
  ∀ l ∈ links, l.from_node ∈ storageKeys storage

/-- No link of the batch leaves a sink node (sinks are terminal outputs;
a sink has no output sockets to link from). -/
def noSinkSources (storage : List (Nat × Node)) (links : List ConstructionLink) : Prop :=
  ∀ l ∈ links, (getNodeD storage l.from_node).is_sink = false

/-- The batch is acyclic: it admits a topological numbering. -/
def acyclicBatch (links : List ConstructionLink) : Prop :=
  ∃ r : Nat → Nat, ∀ l ∈ links, r l.from_node < r l.to_node

/-- Invariant of the reachability loop, stated at iteration boundaries:
the queue prefix `tpq.take i` is processed, the counts record the
multiplicities of links from each non-deleted source into the processed
prefix, every member is a non-deleted node reachable to a sink, the
processed prefix is closed under non-deleted link sources, and every
member is a seed or was added through a link into the set. -/
structure BInv (storage : List (Nat × Node)) (links : List ConstructionLink)
    (st : BState) : Prop where
  hle : st.i ≤ st.tpq.length
  hnd : st.tpq.Nodup
  hdel : ∀ a ∈ st.tpq, isDeleted storage a = false
  hsound : ∀ a ∈ st.tpq, Reach storage links a
  hclosed : ∀ y ∈ st.tpq.take st.i, ∀ l ∈ links, l.to_node = y →
    isDeleted storage l.from_node = false → l.from_node ∈ st.tpq
  hcount : ∀ x, st.count x =
    if isDeleted storage x then 0 else (tpSum links x (st.tpq.take st.i) : Int)
  horigin : ∀ a ∈ st.tpq, a ∈ seedsOf storage ∨
    ∃ l ∈ links, l.from_node = a ∧ l.to_node ∈ st.tpq
  hseeds : ∀ a ∈ seedsOf storage, a ∈ st.tpq

/-- Invariant of the topological loop (stated at iteration boundaries,
for batches with no link out of a sink): `q` never repeats a node, stays
inside `to_process`, each count holds the multiplicity of links from its
node into the unprocessed part of `to_process`, members of `q` have
count 0, a count can only be 0 for members of `q`, and every member's
batch targets inside `to_process` appear strictly earlier in `q`. -/
structure KInv (links : List ConstructionLink) (tpq : List Nat)
    (st : KState) : Prop where
  hle : st.i ≤ st.q.length
  hnd : st.q.Nodup
  hsub : ∀ a ∈ st.q, a ∈ tpq
  hcnt : ∀ x ∈ tpq, st.count x =
    (tpSum links x (outside tpq (st.q.take st.i)) : Int)
  hzero : ∀ a ∈ st.q, st.count a = 0
  hpush : ∀ x ∈ tpq, st.count x = 0 → x ∈ st.q
  htopo : ∀ l ∈ links, l.to_node ∈ tpq → ∀ j, ∀ hj : j < st.q.length,
    st.q.get ⟨j, hj⟩ = l.from_node → l.to_node ∈ st.q.take j

/-- `cs` is a directed cycle of the batch: nonempty, and each member
links to the next (cyclically). -/
def isChainCycle (links : List ConstructionLink) (cs : List Nat) : Prop :=
  cs ≠ [] ∧ ∀ i < cs.length, ∃ l ∈ links,
    l.from_node = cs.getD i 0 ∧ l.to_node = cs.getD ((i + 1) % cs.length) 0

/-- The set `to_process` (as the list `to_process_q`) computed by the
reachability pass. -/
def tpOf (storage : List (Nat × Node)) (links : List ConstructionLink) : List Nat :=
  (bfsRun storage links).tpq

/-- The `links_from_count` map as left by the reachability pass. -/
def c0Of (storage : List (Nat × Node)) (links : List ConstructionLink) : Nat → Int :=
  (bfsRun storage links).count

/-- The vector `q` as left by the topological pass. -/
def qOf (storage : List (Nat × Node)) (links : List ConstructionLink) : List Nat :=
  (kahnRun storage links (tpOf storage links) (c0Of storage links)).q

/-! ### Concrete instances

Small node sets and link batches used to evaluate the model on explicit
inputs. -/

/-- A fresh node: flags clear, nothing applied. -/
def mkNode (sink : Bool) (inputs : Nat) : Node :=
  ⟨sink, inputs, false, false, false, []⟩

/-- A fresh node already marked for deletion. -/
def mkMarked (sink : Bool) (inputs : Nat) : Node :=
  ⟨sink, inputs, true, false, false, []⟩

/-- A fresh node currently connected (reachable in the active graph). -/
def mkConnected (sink : Bool) (inputs : Nat) : Node :=
  ⟨sink, inputs, false, true, false, []⟩

/-- Wrap a storage list into an engine state with no tree, empty queue,
and an `"osc"` node type registered. -/
def mkState (storage : List (Nat × Node)) : EngineState :=
  ⟨storage, 100, none, [], [("osc", mkNode false 0)]⟩

/-- Acyclic four-node batch on which the builder's order is broken: sinks
`0` and `1`, where sink `1` has an outgoing link (`1 → 3`) and an incoming
link (`2 → 1`), and `3 → 0` closes the chain `2 → 1 → 3 → 0`. Sink `1` is
re-pushed by the topological pass after its consumer, so the reversed
order starts with its duplicate occurrence. -/
def exA_storage : List (Nat × Node) :=
  [(0, mkNode true 1), (1, mkNode true 1), (2, mkNode false 0), (3, mkNode false 1)]

/-- The links `2 → 1`, `1 → 3`, `3 → 0` of the acyclic example. -/
def exA_links : List ConstructionLink :=
  [⟨2, 1, 0, 0⟩, ⟨1, 3, 0, 0⟩, ⟨3, 0, 0, 0⟩]

/-- A topological numbering witnessing that `exA_links` is acyclic. -/
def exA_rank : Nat → Nat :=
  fun x => if x = 2 then 0 else if x = 1 then 1 else if x = 3 then 2 else 3

/-- Batch with a genuine cycle (`4 ↔ 3`) reachable from sink `0` through
`3 → 0`, plus sink-to-sink links `0 → 2` and `1 → 2` whose duplicate
re-pushes pad `q` past `to_process.size()`, defeating the cycle check. -/
def exB_storage : List (Nat × Node) :=
  [(0, mkNode true 1), (1, mkNode true 0), (2, mkNode true 2),
   (3, mkNode false 1), (4, mkNode false 1)]

/-- The links `0 → 2`, `1 → 2`, `3 → 0`, `4 → 3`, `3 → 4` of the
fooled-cycle example. -/
def exB_links : List ConstructionLink :=
  [⟨0, 2, 0, 0⟩, ⟨1, 2, 0, 1⟩, ⟨3, 0, 0, 0⟩, ⟨4, 3, 0, 0⟩, ⟨3, 4, 0, 0⟩]

/-- Two non-sink nodes linked in a cycle with no sink anywhere. -/
def exC_storage : List (Nat × Node) :=
  [(0, mkNode false 1), (1, mkNode false 1)]

/-- The links `0 → 1`, `1 → 0` of the sinkless example. -/
def exC_links : List ConstructionLink :=
  [⟨0, 1, 0, 0⟩, ⟨1, 0, 0, 0⟩]

/-- The spec's end-to-end scenario: producer `0` feeding sink `1`. -/
def exD_storage : List (Nat × Node) :=
  [(0, mkNode false 0), (1, mkNode true 1)]

/-- The single link `0 → 1` of the producer-sink scenario. -/
def exD_links : List ConstructionLink :=
  [⟨0, 1, 0, 0⟩]

/-- A cycle `1 ↔ 2` reachable from sink `0` (through `2 → 0`), with no
link out of any sink: the build must fail. -/
def exE_storage : List (Nat × Node) :=
  [(0, mkNode true 1), (1, mkNode false 1), (2, mkNode false 1)]

/-- The links `1 → 2`, `2 → 1`, `2 → 0` of the failing-cycle example. -/
def exE_links : List ConstructionLink :=
  [⟨1, 2, 0, 0⟩, ⟨2, 1, 0, 0⟩, ⟨2, 0, 0, 0⟩]

/-- Sink `0` plus node `1` marked for deletion. -/
def exF_storage : List (Nat × Node) :=
  [(0, mkNode true 1), (1, mkMarked false 0)]

/-- The sample block of the conversion scenario. -/
def exG_block : List ℚ :=
  [-2, -1, 0, 1/2, 1, 2]

/-- A state holding one connected node `0`, for the `send_message` and
unknown-id scenarios. -/
def exH_state : EngineState :=
  mkState [(0, mkConnected false 1)]

/-- Storage of the callback scenario: the not-yet-connected sink `0` fed by
the already-connected node `1`, plus the connected node `2` that loses its
reachability in the rebuild. -/
def exI_storage : List (Nat × Node) :=
  [(0, mkNode true 1), (1, mkConnected false 0), (2, mkConnected false 0)]

/-- The single link `1 → 0` of the callback scenario. -/
def exI_links : List ConstructionLink :=
  [⟨1, 0, 0, 0⟩]

/-- The graph the builder emits on the broken-order example `exA`: sink `1`
is scheduled twice and the resolved link of the node at position `0` points
at position `0`. -/
def exA_tree : NodeTree :=
  ⟨[1, 2, 3, 1, 0],
    [[⟨true, 0, 0⟩], [], [⟨true, 0, 0⟩], [⟨true, 1, 0⟩], [⟨true, 2, 0⟩]]⟩

/-- An oracle under which every `msg_queue.full()` read sees a full queue. -/
def alwaysFull : Nat → Bool := fun _ => true

/-- The message of the `send_message` scenario: a property update for the
connected node `0`. -/
def exMsg : Message := ⟨0, MsgPayload.property 0 5⟩

/-! ### Generic list lemmas -/

theorem length_le_of_nodup_subset {l₁ l₂ : List Nat} (h₁ : l₁.Nodup)
    (hsub : ∀ a ∈ l₁, a ∈ l₂) : l₁.length ≤ l₂.length := by
  have hsp : l₁.Subperm l₂ := List.subperm_of_subset h₁ hsub
  exact hsp.length_le

theorem length_lt_of_nodup_ssubset {l₁ l₂ : List Nat} (h₁ : l₁.Nodup)
    (hsub : ∀ a ∈ l₁, a ∈ l₂) (a : Nat) (ha₂ : a ∈ l₂) (ha₁ : a ∉ l₁) :
    l₁.length < l₂.length := by
  have h₁' : (a :: l₁).Nodup := List.nodup_cons.mpr ⟨ha₁, h₁⟩
  have hsub' : ∀ b ∈ a :: l₁, b ∈ l₂ := by
    intro b hb
    rcases List.mem_cons.mp hb with hb | hb
    · exact hb ▸ ha₂
    · exact hsub b hb
  have := length_le_of_nodup_subset h₁' hsub'
  simpa [Nat.succ_le_iff] using this

/-! ### Membership and counting lemmas for the builder's bookkeeping -/

theorem mem_outside {tpq P : List Nat} {z : Nat} :
    z ∈ outside tpq P ↔ z ∈ tpq ∧ z ∉ P := by
  simp [outside, List.mem_filter]

theorem outside_nil (tpq : List Nat) : outside tpq [] = tpq := by
  simp [outside]

theorem mult_pos_of_mem {links : List ConstructionLink} {l : ConstructionLink}
    (hl : l ∈ links) : 0 < mult links l.from_node l.to_node := by
  have : l ∈ links.filter (fun l' => l'.from_node == l.from_node && l'.to_node == l.to_node) := by
    simp [List.mem_filter, hl]
  exact List.length_pos.mpr (List.ne_nil_of_mem this)

theorem exists_link_of_mult_pos {links : List ConstructionLink} {x y : Nat}
    (h : 0 < mult links x y) :
    ∃ l ∈ links, l.from_node = x ∧ l.to_node = y := by
  unfold mult at h
  rcases List.exists_mem_of_length_pos h with ⟨l, hl⟩
  rw [List.mem_filter] at hl
  refine ⟨l, hl.1, ?_, ?_⟩
  · have := hl.2
    simp only [Bool.and_eq_true, beq_iff_eq] at this
    exact this.1
  · have := hl.2
    simp only [Bool.and_eq_true, beq_iff_eq] at this
    exact this.2

theorem mult_le_tpSum {links : List ConstructionLink} {x y : Nat} {S : List Nat}
    (hy : y ∈ S) : mult links x y ≤ tpSum links x S := by
  unfold tpSum
  exact List.single_le_sum (by intro a _; exact Nat.zero_le a) _
    (List.mem_map.mpr ⟨y, hy, rfl⟩)

theorem tpSum_eq_zero_iff {links : List ConstructionLink} {x : Nat} {S : List Nat} :
    tpSum links x S = 0 ↔ ∀ y ∈ S, mult links x y = 0 := by
  unfold tpSum
  rw [List.sum_eq_zero_iff]
  constructor
  · intro h y hy
    exact h _ (List.mem_map.mpr ⟨y, hy, rfl⟩)
  · intro h m hm
    rcases List.mem_map.mp hm with ⟨y, hy, rfl⟩
    exact h y hy

theorem cntFrom_cons {x : Nat} {l : ConstructionLink} {rest : List ConstructionLink} :
    cntFrom x (l :: rest) =
      (if l.from_node = x then 1 else 0) + cntFrom x rest := by
  by_cases h : l.from_node = x
  · simp [cntFrom, List.filter_cons, h, Nat.add_comm]
  · simp [cntFrom, List.filter_cons, h]

theorem cntFrom_linksTo {links : List ConstructionLink} {x y : Nat} :
    cntFrom x (linksTo links y) = mult links x y := by
  unfold cntFrom linksTo mult
  rw [List.filter_filter]

theorem mem_linksTo {links : List ConstructionLink} {l : ConstructionLink} {y : Nat} :
    l ∈ linksTo links y ↔ l ∈ links ∧ l.to_node = y := by
  simp [linksTo, List.mem_filter]

/-- Splitting the unprocessed multiplicity sum at a fresh element `y`:
processing `y` removes exactly `mult x y` from the sum. -/
theorem tpSum_outside_step {links : List ConstructionLink} {tpq P : List Nat}
    {x y : Nat} (hnd : tpq.Nodup) (hy : y ∈ tpq) (hyP : y ∉ P) :
    tpSum links x (outside tpq P) =
      tpSum links x (outside tpq (P ++ [y])) + mult links x y := by
  induction tpq with
  | nil => cases hy
  | cons a rest ih =>
    have hnd' : rest.Nodup := (List.nodup_cons.mp hnd).2
    have hand : a ∉ rest := (List.nodup_cons.mp hnd).1
    rcases List.mem_cons.mp hy with hya | hyr
    · subst hya
      have hrest : outside rest (P ++ [y]) = outside rest P := by
        apply List.filter_congr
        intro z hz
        have hza : z ≠ y := fun h => hand (h ▸ hz)
        simp [List.mem_append, hza]
      have h1 : outside (y :: rest) P = y :: outside rest P := by
        simp [outside, List.filter_cons, hyP]
      have h2 : outside (y :: rest) (P ++ [y]) = outside rest (P ++ [y]) := by
        simp [outside, List.filter_cons]
      rw [h1, h2, hrest]
      simp only [tpSum, List.map_cons, List.sum_cons]
      omega
    · have hay : a ≠ y := fun h => hand (h ▸ hyr)
      by_cases haP : a ∈ P
      · have h1 : outside (a :: rest) P = outside rest P := by
          simp [outside, List.filter_cons, haP]
        have h2 : outside (a :: rest) (P ++ [y]) = outside rest (P ++ [y]) := by
          simp [outside, List.filter_cons, List.mem_append, haP]
        rw [h1, h2, ih hnd' hyr]
      · have h1 : outside (a :: rest) P = a :: outside rest P := by
          simp [outside, List.filter_cons, haP]
        have h2 : outside (a :: rest) (P ++ [y]) = a :: outside rest (P ++ [y]) := by
          simp [outside, List.filter_cons, List.mem_append, haP, hay]
        rw [h1, h2]
        have h3 := ih hnd' hyr
        simp only [tpSum, List.map_cons, List.sum_cons] at h3 ⊢
        omega

/-! ### Storage lookup lemmas -/

theorem lookupNode_mem {storage : List (Nat × Node)} {id : Nat} {n : Node}
    (h : lookupNode storage id = some n) : (id, n) ∈ storage := by
  unfold lookupNode at h
  cases hf : storage.find? (fun p => p.1 == id) with
  | none => rw [hf] at h; cases h
  | some p =>
    rw [hf] at h
    simp only [Option.map_some'] at h
    have hm := List.mem_of_find?_eq_some hf
    have hp : p.1 = id := by simpa using List.find?_some hf
    have hpe : (id, n) = p := by
      cases p
      simp_all
    rw [hpe]
    exact hm

theorem mem_lookupNode {storage : List (Nat × Node)} (hk : keysNodup storage)
    {id : Nat} {n : Node} (h : (id, n) ∈ storage) :
    lookupNode storage id = some n := by
  induction storage with
  | nil => cases h
  | cons p rest ih =>
    have hk0 : p.1 ∉ storageKeys rest ∧ keysNodup rest := by
      have := hk
      simp only [keysNodup, storageKeys, List.map_cons, List.nodup_cons] at this
      exact this
    rcases List.mem_cons.mp h with he | hr
    · rw [← he]
      simp [lookupNode, List.find?]
    · have hne : p.1 ≠ id := by
        intro hcontra
        apply hk0.1
        rw [hcontra]
        exact List.mem_map.mpr ⟨(id, n), hr, rfl⟩
      have hb : (p.1 == id) = false := by simp [hne]
      have : lookupNode rest id = some n := ih hk0.2 hr
      simpa [lookupNode, List.find?_cons, hb] using this

theorem lookupNode_isSome_iff {storage : List (Nat × Node)} {id : Nat} :
    (lookupNode storage id).isSome = true ↔ id ∈ storageKeys storage := by
  unfold lookupNode storageKeys
  rw [Option.isSome_map']
  rw [List.find?_isSome]
  constructor
  · rintro ⟨p, hp, hb⟩
    exact List.mem_map.mpr ⟨p, hp, by simpa using hb⟩
  · rintro hm
    rcases List.mem_map.mp hm with ⟨p, hp, he⟩
    exact ⟨p, hp, by simpa using he⟩

theorem lookupNode_none_iff {storage : List (Nat × Node)} {id : Nat} :
    lookupNode storage id = none ↔ id ∉ storageKeys storage := by
  rw [← lookupNode_isSome_iff]
  cases lookupNode storage id <;> simp

theorem getNodeD_eq {storage : List (Nat × Node)} {id : Nat} {n : Node}
    (h : lookupNode storage id = some n) : getNodeD storage id = n := by
  simp [getNodeD, h]

theorem isDeleted_eq {storage : List (Nat × Node)} {id : Nat} {n : Node}
    (h : lookupNode storage id = some n) :
    isDeleted storage id = n.mark_deletion := by
  simp [isDeleted, getNodeD_eq h]

/-! ### Phase A lemmas -/

theorem mem_seedsOf {storage : List (Nat × Node)} {id : Nat} :
    id ∈ seedsOf storage ↔
      ∃ n, (id, n) ∈ storage ∧ n.mark_deletion = false ∧ n.is_sink = true := by
  unfold seedsOf
  constructor
  · intro h
    rcases List.mem_map.mp h with ⟨p, hp, he⟩
    rw [List.mem_filter] at hp
    refine ⟨p.2, ?_, ?_, ?_⟩
    · have : (id, p.2) = p := by cases p; simp_all
      rw [this]; exact hp.1
    · have := hp.2; simp only [Bool.and_eq_true, Bool.not_eq_true'] at this
      exact this.1
    · have := hp.2; simp only [Bool.and_eq_true, Bool.not_eq_true'] at this
      exact this.2
  · rintro ⟨n, hm, hd, hs⟩
    exact List.mem_map.mpr ⟨(id, n), List.mem_filter.mpr ⟨hm, by simp [hd, hs]⟩, rfl⟩

theorem mem_markedOf {storage : List (Nat × Node)} {id : Nat} :
    id ∈ markedOf storage ↔ ∃ n, (id, n) ∈ storage ∧ n.mark_deletion = true := by
  unfold markedOf
  constructor
  · intro h
    rcases List.mem_map.mp h with ⟨p, hp, he⟩
    rw [List.mem_filter] at hp
    refine ⟨p.2, ?_, hp.2⟩
    have : (id, p.2) = p := by cases p; simp_all
    rw [this]; exact hp.1
  · rintro ⟨n, hm, hd⟩
    exact List.mem_map.mpr ⟨(id, n), List.mem_filter.mpr ⟨hm, hd⟩, rfl⟩

theorem seedsOf_sublist_keys (storage : List (Nat × Node)) :
    (seedsOf storage).Sublist (storageKeys storage) := by
  unfold seedsOf storageKeys
  exact (List.filter_sublist storage).map (fun p => p.1)

theorem seedsOf_nodup {storage : List (Nat × Node)} (hk : keysNodup storage) :
    (seedsOf storage).Nodup :=
  (seedsOf_sublist_keys storage).nodup hk

theorem seedsOf_subset_keys {storage : List (Nat × Node)} {id : Nat}
    (h : id ∈ seedsOf storage) : id ∈ storageKeys storage :=
  (seedsOf_sublist_keys storage).mem h

theorem seedsOf_not_deleted {storage : List (Nat × Node)} (hk : keysNodup storage)
    {id : Nat} (h : id ∈ seedsOf storage) : isDeleted storage id = false := by
  rcases mem_seedsOf.mp h with ⟨n, hm, hd, _⟩
  rw [isDeleted_eq (mem_lookupNode hk hm)]
  exact hd

theorem seedsOf_is_sink {storage : List (Nat × Node)} (hk : keysNodup storage)
    {id : Nat} (h : id ∈ seedsOf storage) :
    (getNodeD storage id).is_sink = true := by
  rcases mem_seedsOf.mp h with ⟨n, hm, _, hs⟩
  rw [getNodeD_eq (mem_lookupNode hk hm)]
  exact hs

theorem seedsOf_length_le (storage : List (Nat × Node)) :
    (seedsOf storage).length ≤ storage.length := by
  have h1 := (seedsOf_sublist_keys storage).length_le
  simpa [storageKeys] using h1

/-! ### Reachability pass lemmas -/

theorem tpSum_append {links : List ConstructionLink} {x : Nat} {S T : List Nat} :
    tpSum links x (S ++ T) = tpSum links x S + tpSum links x T := by
  simp [tpSum]

theorem tpSum_single {links : List ConstructionLink} {x y : Nat} :
    tpSum links x [y] = mult links x y := by
  simp [tpSum]

theorem outside_length_step {L P : List Nat} {a : Nat} (hnd : L.Nodup)
    (ha : a ∈ L) (haP : a ∉ P) :
    (outside L P).length = (outside L (P ++ [a])).length + 1 := by
  induction L with
  | nil => cases ha
  | cons b rest ih =>
    have hnd' : rest.Nodup := (List.nodup_cons.mp hnd).2
    have hbnd : b ∉ rest := (List.nodup_cons.mp hnd).1
    rcases List.mem_cons.mp ha with hab | har
    · subst hab
      have hrest : outside rest (P ++ [a]) = outside rest P := by
        apply List.filter_congr
        intro z hz
        have hza : z ≠ a := fun h => hbnd (h ▸ hz)
        simp [List.mem_append, hza]
      have h1 : outside (a :: rest) P = a :: outside rest P := by
        simp [outside, List.filter_cons, haP]
      have h2 : outside (a :: rest) (P ++ [a]) = outside rest (P ++ [a]) := by
        simp [outside, List.filter_cons]
      rw [h1, h2, hrest]
      simp
    · have hba : b ≠ a := fun h => hbnd (h ▸ har)
      by_cases hbP : b ∈ P
      · have h1 : outside (b :: rest) P = outside rest P := by
          simp [outside, List.filter_cons, hbP]
        have h2 : outside (b :: rest) (P ++ [a]) = outside rest (P ++ [a]) := by
          simp [outside, List.filter_cons, List.mem_append, hbP]
        rw [h1, h2, ih hnd' har]
      · have h1 : outside (b :: rest) P = b :: outside rest P := by
          simp [outside, List.filter_cons, hbP]
        have h2 : outside (b :: rest) (P ++ [a]) = b :: outside rest (P ++ [a]) := by
          simp [outside, List.filter_cons, List.mem_append, hbP, hba]
        rw [h1, h2]
        simp only [List.length_cons]
        rw [ih hnd' har]

theorem bfsProcessLinks_spec (storage : List (Nat × Node)) :
    ∀ (ls : List ConstructionLink) (tpq : List Nat) (count : Nat → Int),
    ∃ app, (bfsProcessLinks storage ls tpq count).1 = tpq ++ app ∧
      ∀ a ∈ app, isDeleted storage a = false ∧ ∃ l ∈ ls, l.from_node = a := by
  intro ls
  induction ls with
  | nil => intro tpq count; exact ⟨[], by simp [bfsProcessLinks], by simp⟩
  | cons l rest ih =>
    intro tpq count
    by_cases hdel : isDeleted storage l.from_node
    · rcases ih tpq count with ⟨app, he, hp⟩
      refine ⟨app, ?_, ?_⟩
      · simpa [bfsProcessLinks, hdel] using he
      · intro a ha
        rcases hp a ha with ⟨h1, ll, hll, h2⟩
        exact ⟨h1, ll, List.mem_cons_of_mem _ hll, h2⟩
    · by_cases hmem : l.from_node ∈ tpq
      · rcases ih tpq (fun x => if x = l.from_node then count x + 1 else count x)
          with ⟨app, he, hp⟩
        refine ⟨app, ?_, ?_⟩
        · simpa [bfsProcessLinks, hdel, hmem] using he
        · intro a ha
          rcases hp a ha with ⟨h1, ll, hll, h2⟩
          exact ⟨h1, ll, List.mem_cons_of_mem _ hll, h2⟩
      · rcases ih (tpq ++ [l.from_node])
          (fun x => if x = l.from_node then count x + 1 else count x)
          with ⟨app, he, hp⟩
        refine ⟨l.from_node :: app, ?_, ?_⟩
        · have : (tpq ++ [l.from_node]) ++ app = tpq ++ (l.from_node :: app) := by simp
          rw [← this]
          simpa [bfsProcessLinks, hdel, hmem] using he
        · intro a ha
          rcases List.mem_cons.mp ha with hae | haa
          · subst hae
            exact ⟨by simpa using hdel, l, List.mem_cons_self _ _, rfl⟩
          · rcases hp a haa with ⟨h1, ll, hll, h2⟩
            exact ⟨h1, ll, List.mem_cons_of_mem _ hll, h2⟩

theorem bfsProcessLinks_mono (storage : List (Nat × Node))
    (ls : List ConstructionLink) (tpq : List Nat) (count : Nat → Int) :
    ∀ a ∈ tpq, a ∈ (bfsProcessLinks storage ls tpq count).1 := by
  rcases bfsProcessLinks_spec storage ls tpq count with ⟨app, he, _⟩
  intro a ha
  rw [he]
  exact List.mem_append_left _ ha

theorem bfsProcessLinks_closure (storage : List (Nat × Node)) :
    ∀ (ls : List ConstructionLink) (tpq : List Nat) (count : Nat → Int),
    ∀ l ∈ ls, isDeleted storage l.from_node = false →
      l.from_node ∈ (bfsProcessLinks storage ls tpq count).1 := by
  intro ls
  induction ls with
  | nil => intro tpq count l hl; cases hl
  | cons l0 rest ih =>
    intro tpq count l hl hld
    rcases List.mem_cons.mp hl with he | hr
    · subst he
      by_cases hmem : l.from_node ∈ tpq
      · simp only [bfsProcessLinks, hld]
        simp only [Bool.false_eq_true, if_false, hmem, if_true]
        exact bfsProcessLinks_mono storage rest tpq _ _ hmem
      · simp only [bfsProcessLinks, hld]
        simp only [Bool.false_eq_true, if_false, hmem, if_false]
        exact bfsProcessLinks_mono storage rest (tpq ++ [l.from_node]) _ _
          (List.mem_append_right _ (List.mem_singleton.mpr rfl))
    · by_cases hdel0 : isDeleted storage l0.from_node
      · simp only [bfsProcessLinks, hdel0, if_true]
        exact ih tpq count l hr hld
      · by_cases hmem0 : l0.from_node ∈ tpq
        · simp only [bfsProcessLinks, hdel0]
          simp only [Bool.false_eq_true, if_false, hmem0, if_true]
          exact ih tpq _ l hr hld
        · simp only [bfsProcessLinks, hdel0]
          simp only [Bool.false_eq_true, if_false, hmem0, if_false]
          exact ih (tpq ++ [l0.from_node]) _ l hr hld

theorem bfsProcessLinks_count (storage : List (Nat × Node)) :
    ∀ (ls : List ConstructionLink) (tpq : List Nat) (count : Nat → Int) (x : Nat),
    (bfsProcessLinks storage ls tpq count).2 x =
      count x + (if isDeleted storage x then 0 else (cntFrom x ls : Int)) := by
  intro ls
  induction ls with
  | nil =>
    intro tpq count x
    by_cases h : isDeleted storage x <;> simp [bfsProcessLinks, cntFrom, h]
  | cons l rest ih =>
    intro tpq count x
    by_cases hdel : isDeleted storage l.from_node
    · simp only [bfsProcessLinks, hdel, if_true]
      rw [ih]
      by_cases hx : isDeleted storage x
      · simp [hx]
      · have hxl : l.from_node ≠ x := by
          intro he; rw [he] at hdel; exact absurd hdel (by simp [hx])
        rw [cntFrom_cons]
        simp [hxl, hx]
    · simp only [bfsProcessLinks, hdel]
      by_cases hmem : l.from_node ∈ tpq
      · simp only [Bool.false_eq_true, if_false, hmem, if_true]
        rw [ih, cntFrom_cons]
        by_cases hx : x = l.from_node
        · have hld : isDeleted storage l.from_node = false := by simpa using hdel
          simp only [hx, hld, Bool.false_eq_true, if_false, if_pos rfl]
          push_cast
          ring
        · have hlx : l.from_node ≠ x := fun he => hx he.symm
          simp [hlx, hx]
      · simp only [Bool.false_eq_true, if_false, hmem, if_false]
        rw [ih, cntFrom_cons]
        by_cases hx : x = l.from_node
        · have hld : isDeleted storage l.from_node = false := by simpa using hdel
          simp only [hx, hld, Bool.false_eq_true, if_false, if_pos rfl]
          push_cast
          ring
        · have hlx : l.from_node ≠ x := fun he => hx he.symm
          simp [hlx, hx]

theorem bfsProcessLinks_nodup (storage : List (Nat × Node)) :
    ∀ (ls : List ConstructionLink) (tpq : List Nat) (count : Nat → Int),
    tpq.Nodup → (bfsProcessLinks storage ls tpq count).1.Nodup := by
  intro ls
  induction ls with
  | nil => intro tpq count h; simpa [bfsProcessLinks] using h
  | cons l rest ih =>
    intro tpq count h
    by_cases hdel : isDeleted storage l.from_node
    · simp only [bfsProcessLinks, hdel, if_true]
      exact ih tpq count h
    · by_cases hmem : l.from_node ∈ tpq
      · simp only [bfsProcessLinks, hdel]
        simp only [Bool.false_eq_true, if_false, hmem, if_true]
        exact ih tpq _ h
      · simp only [bfsProcessLinks, hdel]
        simp only [Bool.false_eq_true, if_false, hmem, if_false]
        apply ih
        simp [List.nodup_append, h, hmem]

theorem bfsProcessLinks_measure (storage : List (Nat × Node))
    (links : List ConstructionLink) :
    ∀ (ls : List ConstructionLink) (tpq : List Nat) (count : Nat → Int),
    (∀ l ∈ ls, l ∈ links) →
    (bfsProcessLinks storage ls tpq count).1.length +
      (outside (links.map (fun l => l.from_node)).dedup
        (bfsProcessLinks storage ls tpq count).1).length ≤
    tpq.length + (outside (links.map (fun l => l.from_node)).dedup tpq).length := by
  intro ls
  induction ls with
  | nil => intro tpq count _; simp [bfsProcessLinks]
  | cons l rest ih =>
    intro tpq count hsub
    have hsub' : ∀ l' ∈ rest, l' ∈ links := fun l' h => hsub l' (List.mem_cons_of_mem _ h)
    by_cases hdel : isDeleted storage l.from_node
    · simp only [bfsProcessLinks, hdel, if_true]
      exact ih tpq count hsub'
    · by_cases hmem : l.from_node ∈ tpq
      · simp only [bfsProcessLinks, hdel]
        simp only [Bool.false_eq_true, if_false, hmem, if_true]
        exact ih tpq _ hsub'
      · simp only [bfsProcessLinks, hdel]
        simp only [Bool.false_eq_true, if_false, hmem, if_false]
        have hstep := ih (tpq ++ [l.from_node]) (fun x => if x = l.from_node then count x + 1 else count x) hsub'
        have hcand : l.from_node ∈ (links.map (fun l => l.from_node)).dedup :=
          List.mem_dedup.mpr
            (List.mem_map.mpr ⟨l, hsub l (List.mem_cons_self _ _), rfl⟩)
        have hout := outside_length_step (List.nodup_dedup _) hcand hmem
        calc (bfsProcessLinks storage rest (tpq ++ [l.from_node]) _).1.length +
            (outside (links.map (fun l => l.from_node)).dedup
              (bfsProcessLinks storage rest (tpq ++ [l.from_node]) _).1).length
            ≤ (tpq ++ [l.from_node]).length +
              (outside (links.map (fun l => l.from_node)).dedup
                (tpq ++ [l.from_node])).length := hstep
          _ ≤ tpq.length + (outside (links.map (fun l => l.from_node)).dedup tpq).length := by
              simp only [List.length_append, List.length_singleton]
              omega

theorem bfsLoop_inv (storage : List (Nat × Node)) (links : List ConstructionLink) :
    ∀ (fuel : Nat) (st : BState), BInv storage links st →
    BInv storage links (bfsLoop storage links fuel st) := by
  intro fuel
  induction fuel with
  | zero => intro st h; simpa [bfsLoop] using h
  | succ n ih =>
    intro st h
    by_cases hlt : st.i < st.tpq.length
    · have hred : bfsLoop storage links (n + 1) st =
          bfsLoop storage links n
            ⟨(bfsProcessLinks storage (linksTo links (st.tpq.get ⟨st.i, hlt⟩)) st.tpq st.count).1,
              st.i + 1,
              (bfsProcessLinks storage (linksTo links (st.tpq.get ⟨st.i, hlt⟩)) st.tpq st.count).2⟩ := by
        simp only [bfsLoop, dif_pos hlt]
      rw [hred]
      apply ih
      rcases bfsProcessLinks_spec storage (linksTo links (st.tpq.get ⟨st.i, hlt⟩))
        st.tpq st.count with ⟨app, happ, hpay⟩
      have hymem : st.tpq.get ⟨st.i, hlt⟩ ∈ st.tpq := List.get_mem _ _ _
      have htake : (bfsProcessLinks storage (linksTo links (st.tpq.get ⟨st.i, hlt⟩))
          st.tpq st.count).1.take (st.i + 1) =
          st.tpq.take st.i ++ [st.tpq.get ⟨st.i, hlt⟩] := by
        rw [happ, List.take_append_of_le_length (by omega)]
        have hcg := List.take_concat_get st.tpq st.i hlt
        rw [List.concat_eq_append] at hcg
        rw [← hcg]
        simp [List.get_eq_getElem]
      refine ⟨?_, ?_, ?_, ?_, ?_, ?_, ?_, ?_⟩
      · dsimp only
        rw [happ]
        simp only [List.length_append]
        omega
      · exact bfsProcessLinks_nodup storage _ _ _ h.hnd
      · intro a ha
        rw [happ] at ha
        rcases List.mem_append.mp ha with hold | hnew
        · exact h.hdel a hold
        · exact (hpay a hnew).1
      · intro a ha
        rw [happ] at ha
        rcases List.mem_append.mp ha with hold | hnew
        · exact h.hsound a hold
        · rcases hpay a hnew with ⟨hdl, l, hlm, hfrom⟩
          rcases mem_linksTo.mp hlm with ⟨hll, hto⟩
          have hr : Reach storage links l.to_node := by
            rw [hto]; exact h.hsound _ hymem
          have := Reach.step l hll (by rw [hfrom]; exact hdl) hr
          rwa [hfrom] at this
      · intro y' hy' l hl hto hdl
        rw [htake] at hy'
        rcases List.mem_append.mp hy' with hold | hnew
        · exact bfsProcessLinks_mono storage _ _ _ _ (h.hclosed y' hold l hl hto hdl)
        · have hy'e : y' = st.tpq.get ⟨st.i, hlt⟩ := List.mem_singleton.mp hnew
          exact bfsProcessLinks_closure storage _ _ _ l
            (mem_linksTo.mpr ⟨hl, by rw [hto, hy'e]⟩) hdl
      · intro x
        dsimp only
        rw [bfsProcessLinks_count, htake, h.hcount x]
        by_cases hdx : isDeleted storage x
        · simp [hdx]
        · simp only [hdx, Bool.false_eq_true, if_false]
          rw [tpSum_append, tpSum_single, cntFrom_linksTo]
          push_cast
          ring
      · intro a ha
        rw [happ] at ha
        rcases List.mem_append.mp ha with hold | hnew
        · rcases h.horigin a hold with hs | ⟨l, hlm, hfrom, htomem⟩
          · exact Or.inl hs
          · exact Or.inr ⟨l, hlm, hfrom, bfsProcessLinks_mono storage _ _ _ _ htomem⟩
        · rcases hpay a hnew with ⟨hdl, l, hlm, hfrom⟩
          rcases mem_linksTo.mp hlm with ⟨hll, hto⟩
          refine Or.inr ⟨l, hll, hfrom, ?_⟩
          rw [hto]
          exact bfsProcessLinks_mono storage _ _ _ _ hymem
      · intro a ha
        exact bfsProcessLinks_mono storage _ _ _ _ (h.hseeds a ha)
    · have hred : bfsLoop storage links (n + 1) st = st := by
        simp only [bfsLoop, dif_neg hlt]
      rw [hred]
      exact h

theorem bfsLoop_complete (storage : List (Nat × Node)) (links : List ConstructionLink) :
    ∀ (fuel : Nat) (st : BState),
    st.tpq.length + (outside (links.map (fun l => l.from_node)).dedup st.tpq).length
      ≤ fuel + st.i →
    (bfsLoop storage links fuel st).tpq.length ≤ (bfsLoop storage links fuel st).i := by
  intro fuel
  induction fuel with
  | zero =>
    intro st hm
    simp only [bfsLoop]
    omega
  | succ n ih =>
    intro st hm
    by_cases hlt : st.i < st.tpq.length
    · have hred : bfsLoop storage links (n + 1) st =
          bfsLoop storage links n
            ⟨(bfsProcessLinks storage (linksTo links (st.tpq.get ⟨st.i, hlt⟩)) st.tpq st.count).1,
              st.i + 1,
              (bfsProcessLinks storage (linksTo links (st.tpq.get ⟨st.i, hlt⟩)) st.tpq st.count).2⟩ := by
        simp only [bfsLoop, dif_pos hlt]
      rw [hred]
      apply ih
      have hms := bfsProcessLinks_measure storage links
        (linksTo links (st.tpq.get ⟨st.i, hlt⟩)) st.tpq st.count
        (fun l hl => (mem_linksTo.mp hl).1)
      dsimp only
      omega
    · have hred : bfsLoop storage links (n + 1) st = st := by
        simp only [bfsLoop, dif_neg hlt]
      rw [hred]
      omega

theorem bfsRun_inv {storage : List (Nat × Node)} {links : List ConstructionLink}
    (hk : keysNodup storage) : BInv storage links (bfsRun storage links) := by
  apply bfsLoop_inv
  refine ⟨?_, ?_, ?_, ?_, ?_, ?_, ?_, ?_⟩
  · simp
  · exact seedsOf_nodup hk
  · intro a ha; exact seedsOf_not_deleted hk ha
  · intro a ha
    rcases mem_seedsOf.mp ha with ⟨m, hm, hd, hs⟩
    exact Reach.sink a m (mem_lookupNode hk hm) hd hs
  · intro y hy; simp at hy
  · intro x
    by_cases hdx : isDeleted storage x <;> simp [tpSum, hdx]
  · intro a ha; exact Or.inl ha
  · intro a ha; exact ha

theorem bfsRun_complete (storage : List (Nat × Node)) (links : List ConstructionLink) :
    (bfsRun storage links).tpq.length ≤ (bfsRun storage links).i := by
  apply bfsLoop_complete
  have h1 : (seedsOf storage).length ≤ storage.length := seedsOf_length_le storage
  have h2 : (outside (links.map (fun l => l.from_node)).dedup (seedsOf storage)).length
      ≤ links.length := by
    calc (outside (links.map (fun l => l.from_node)).dedup (seedsOf storage)).length
        ≤ (links.map (fun l => l.from_node)).dedup.length := List.length_filter_le _ _
      _ ≤ (links.map (fun l => l.from_node)).length := (List.dedup_sublist _).length_le
      _ = links.length := List.length_map _ _
  simp only [loopFuel]
  omega

theorem tp_take_all (storage : List (Nat × Node)) (links : List ConstructionLink) :
    (bfsRun storage links).tpq.take (bfsRun storage links).i = tpOf storage links :=
  List.take_of_length_le (bfsRun_complete storage links)

theorem tp_nodup {storage : List (Nat × Node)} {links : List ConstructionLink}
    (hk : keysNodup storage) : (tpOf storage links).Nodup :=
  (bfsRun_inv hk).hnd

theorem tp_not_deleted {storage : List (Nat × Node)} {links : List ConstructionLink}
    (hk : keysNodup storage) : ∀ a ∈ tpOf storage links, isDeleted storage a = false :=
  (bfsRun_inv hk).hdel

theorem tp_sound {storage : List (Nat × Node)} {links : List ConstructionLink}
    (hk : keysNodup storage) : ∀ a ∈ tpOf storage links, Reach storage links a :=
  (bfsRun_inv hk).hsound

theorem tp_closed {storage : List (Nat × Node)} {links : List ConstructionLink}
    (hk : keysNodup storage) : ∀ y ∈ tpOf storage links, ∀ l ∈ links, l.to_node = y →
    isDeleted storage l.from_node = false → l.from_node ∈ tpOf storage links := by
  intro y hy l hl hto hdl
  have := (@bfsRun_inv storage links hk).hclosed y ?_ l hl hto hdl
  · exact this
  · rw [tp_take_all]
    exact hy

theorem tp_seeds {storage : List (Nat × Node)} {links : List ConstructionLink}
    (hk : keysNodup storage) : ∀ a ∈ seedsOf storage, a ∈ tpOf storage links :=
  (bfsRun_inv hk).hseeds

theorem tp_complete {storage : List (Nat × Node)} {links : List ConstructionLink}
    (hk : keysNodup storage) : ∀ a, Reach storage links a → a ∈ tpOf storage links := by
  intro a hr
  induction hr with
  | sink id n hl hd hs =>
    exact tp_seeds hk id (mem_seedsOf.mpr ⟨n, lookupNode_mem hl, hd, hs⟩)
  | step l hl hd _ ih =>
    exact tp_closed hk l.to_node ih l hl rfl hd

theorem tp_count {storage : List (Nat × Node)} {links : List ConstructionLink}
    (hk : keysNodup storage) : ∀ x, c0Of storage links x =
    if isDeleted storage x then 0 else (tpSum links x (tpOf storage links) : Int) := by
  intro x
  have := (@bfsRun_inv storage links hk).hcount x
  rwa [tp_take_all] at this

theorem tp_origin {storage : List (Nat × Node)} {links : List ConstructionLink}
    (hk : keysNodup storage) : ∀ a ∈ tpOf storage links, a ∈ seedsOf storage ∨
    ∃ l ∈ links, l.from_node = a ∧ l.to_node ∈ tpOf storage links :=
  (bfsRun_inv hk).horigin

theorem tp_subset_keys {storage : List (Nat × Node)} {links : List ConstructionLink}
    (hk : keysNodup storage) (hv : validSources storage links) :
    ∀ a ∈ tpOf storage links, a ∈ storageKeys storage := by
  intro a ha
  rcases tp_origin hk a ha with hs | ⟨l, hl, hfrom, _⟩
  · exact seedsOf_subset_keys hs
  · rw [← hfrom]
    exact hv l hl

/-! ### Topological pass lemmas -/

theorem tpSum_two_le {links : List ConstructionLink} {x y z : Nat} {S : List Nat}
    (hnd : S.Nodup) (hy : y ∈ S) (hz : z ∈ S) (hne : y ≠ z) :
    mult links x y + mult links x z ≤ tpSum links x S := by
  induction S with
  | nil => cases hy
  | cons a rest ih =>
    have hnd' : rest.Nodup := (List.nodup_cons.mp hnd).2
    have hand : a ∉ rest := (List.nodup_cons.mp hnd).1
    have hsumcons : tpSum links x (a :: rest) = mult links x a + tpSum links x rest := by
      simp [tpSum]
    rcases List.mem_cons.mp hy with hya | hyr
    · have hzr : z ∈ rest := by
        rcases List.mem_cons.mp hz with hza | hzr
        · exact absurd (hya.trans hza.symm) hne
        · exact hzr
      rw [hsumcons, ← hya]
      have := @mult_le_tpSum links x _ _ hzr
      omega
    · rcases List.mem_cons.mp hz with hza | hzr
      · rw [hsumcons, ← hza]
        have := @mult_le_tpSum links x _ _ hyr
        omega
      · have := ih hnd' hyr hzr
        rw [hsumcons]
        omega

theorem outside_nodup {tpq P : List Nat} (h : tpq.Nodup) : (outside tpq P).Nodup :=
  h.filter _

theorem tpSum_pos_mem {links : List ConstructionLink} {x : Nat} {S : List Nat}
    (h : 0 < tpSum links x S) : ∃ y ∈ S, 0 < mult links x y := by
  by_contra hc
  push_neg at hc
  have : tpSum links x S = 0 := tpSum_eq_zero_iff.mpr (by
    intro y hy
    exact Nat.le_zero.mp (hc y hy))
  omega

theorem mem_take_index {l : List Nat} {a : Nat} {k : Nat} (h : a ∈ l.take k) :
    ∃ j, ∃ hj : j < l.length, j < k ∧ l.get ⟨j, hj⟩ = a := by
  rcases List.mem_iff_get.mp h with ⟨⟨j, hj⟩, hget⟩
  have hjk : j < k := lt_of_lt_of_le hj (by simpa using List.length_take_le k l)
  have hjl : j < l.length := by
    have := List.length_take_le k l
    have h2 : (l.take k).length = min k l.length := List.length_take k l
    omega
  refine ⟨j, hjl, hjk, ?_⟩
  rw [← hget]
  exact List.get_take l hjl hjk

theorem kahnProcessLinks_spec (links : List ConstructionLink) (tpq : List Nat)
    (y : Nat) (Py : List Nat) (htpqnd : tpq.Nodup) (hytp : y ∈ tpq) (hyPy : y ∉ Py) :
    ∀ (ls : List ConstructionLink) (q : List Nat) (count : Nat → Int),
    (∀ l ∈ ls, l ∈ links ∧ l.to_node = y) →
    (∃ rest, q = Py ++ y :: rest) →
    q.Nodup →
    (∀ a ∈ q, a ∈ tpq) →
    (∀ x ∈ tpq, count x = (tpSum links x (outside tpq Py) : Int)
        - (mult links x y : Int) + (cntFrom x ls : Int)) →
    (∀ a ∈ q, cntFrom a ls = 0 ∧ count a = 0) →
    (∀ x ∈ tpq, count x = 0 → x ∈ q) →
    (∀ l ∈ links, l.to_node ∈ tpq → ∀ j, ∀ hj : j < q.length,
        q.get ⟨j, hj⟩ = l.from_node → l.to_node ∈ q.take j) →
    (∃ rest, (kahnProcessLinks tpq ls q count).1 = Py ++ y :: rest) ∧
    (∃ app, (kahnProcessLinks tpq ls q count).1 = q ++ app) ∧
    (kahnProcessLinks tpq ls q count).1.Nodup ∧
    (∀ a ∈ (kahnProcessLinks tpq ls q count).1, a ∈ tpq) ∧
    (∀ x ∈ tpq, (kahnProcessLinks tpq ls q count).2 x =
      (tpSum links x (outside tpq Py) : Int) - (mult links x y : Int)) ∧
    (∀ a ∈ (kahnProcessLinks tpq ls q count).1,
      (kahnProcessLinks tpq ls q count).2 a = 0) ∧
    (∀ x ∈ tpq, (kahnProcessLinks tpq ls q count).2 x = 0 →
      x ∈ (kahnProcessLinks tpq ls q count).1) ∧
    (∀ l ∈ links, l.to_node ∈ tpq →
      ∀ j, ∀ hj : j < (kahnProcessLinks tpq ls q count).1.length,
        (kahnProcessLinks tpq ls q count).1.get ⟨j, hj⟩ = l.from_node →
        l.to_node ∈ (kahnProcessLinks tpq ls q count).1.take j) := by
  intro ls
  induction ls with
  | nil =>
    intro q count hls hsplit hnd hsub hcnt hstall hpush htopo
    simp only [kahnProcessLinks]
    refine ⟨hsplit, ⟨[], by simp⟩, hnd, hsub, ?_, ?_, hpush, htopo⟩
    · intro x hx
      have := hcnt x hx
      simpa [cntFrom] using this
    · intro a ha
      exact (hstall a ha).2
  | cons l rest ih =>
    intro q count hls hsplit hnd hsub hcnt hstall hpush htopo
    have hl0 : l ∈ links ∧ l.to_node = y := hls l (List.mem_cons_self _ _)
    have hrestls : ∀ l' ∈ rest, l' ∈ links ∧ l'.to_node = y :=
      fun l' h => hls l' (List.mem_cons_of_mem _ h)
    have hyout : y ∈ outside tpq Py := mem_outside.mpr ⟨hytp, hyPy⟩
    by_cases hftp : l.from_node ∈ tpq
    · have hcnt1 : ∀ x ∈ tpq,
          (if x = l.from_node then count x - 1 else count x) =
          (tpSum links x (outside tpq Py) : Int) - (mult links x y : Int)
            + (cntFrom x rest : Int) := by
        intro x hx
        have h1 := hcnt x hx
        rw [cntFrom_cons] at h1
        by_cases hxf : x = l.from_node
        · rw [if_pos hxf, h1, hxf]
          simp only [eq_self_iff_true, if_true]
          push_cast
          ring
        · have hfx : l.from_node ≠ x := fun he => hxf he.symm
          rw [if_neg hxf, h1, if_neg hfx]
          push_cast
          ring
      by_cases hz : count l.from_node - 1 = 0
      · -- push branch
        have hred : kahnProcessLinks tpq (l :: rest) q count =
            kahnProcessLinks tpq rest (q ++ [l.from_node])
              (fun x => if x = l.from_node then count x - 1 else count x) := by
          simp only [kahnProcessLinks, if_pos hftp, eq_self_iff_true, if_true,
            if_pos hz]
        have hfq : l.from_node ∉ q := by
          intro hmem
          have := (hstall _ hmem).1
          rw [cntFrom_cons] at this
          simp at this
        have hcfe := hcnt1 l.from_node hftp
        simp only [eq_self_iff_true, if_true] at hcfe
        have hmle : (mult links l.from_node y : Int) ≤
            (tpSum links l.from_node (outside tpq Py) : Int) := by
          exact_mod_cast mult_le_tpSum hyout
        have hcr0 : (cntFrom l.from_node rest : Int) = 0 := by omega
        have hsm : (tpSum links l.from_node (outside tpq Py) : Int) =
            (mult links l.from_node y : Int) := by omega
        rw [hred]
        have hres := ih (q ++ [l.from_node])
          (fun x => if x = l.from_node then count x - 1 else count x)
          hrestls
          (by
            rcases hsplit with ⟨r0, hq⟩
            exact ⟨r0 ++ [l.from_node], by rw [hq]; simp⟩)
          (by simp [List.nodup_append, hnd, hfq])
          (by
            intro a ha
            rcases List.mem_append.mp ha with h1 | h1
            · exact hsub a h1
            · rw [List.mem_singleton.mp h1]; exact hftp)
          hcnt1
          (by
            intro a ha
            rcases List.mem_append.mp ha with h1 | h1
            · have hst := hstall a h1
              have haf : a ≠ l.from_node := fun he => hfq (he ▸ h1)
              constructor
              · have := hst.1
                rw [cntFrom_cons] at this
                omega
              · show (if a = l.from_node then count a - 1 else count a) = 0
                rw [if_neg haf]
                exact hst.2
            · rw [List.mem_singleton.mp h1]
              refine ⟨by exact_mod_cast hcr0, ?_⟩
              show (if l.from_node = l.from_node then count l.from_node - 1
                else count l.from_node) = 0
              rw [if_pos rfl]
              exact hz)
          (by
            intro x hx hx0
            have hx0' : (if x = l.from_node then count x - 1 else count x) = 0 := hx0
            by_cases hxf : x = l.from_node
            · rw [hxf]; exact List.mem_append_right _ (List.mem_singleton.mpr rfl)
            · rw [if_neg hxf] at hx0'
              exact List.mem_append_left _ (hpush x hx hx0'))
          (by
            intro l' hl' hto' j hj hget
            have hjlen : j < q.length + 1 := by simpa using hj
            by_cases hjq : j < q.length
            · have hget' : q.get ⟨j, hjq⟩ = l'.from_node := by
                rw [← hget]
                exact (List.get_append j hjq).symm
              have := htopo l' hl' hto' j hjq hget'
              rw [List.take_append_of_le_length (Nat.le_of_lt hjq)]
              exact this
            · have hje : j = q.length := by omega
              have hgf : l'.from_node = l.from_node := by
                rw [← hget]
                subst hje
                rw [List.get_eq_getElem]
                simp
              have htgt : l'.to_node ∈ Py ∨ l'.to_node = y := by
                by_contra hcontra
                push_neg at hcontra
                have hout : l'.to_node ∈ outside tpq Py :=
                  mem_outside.mpr ⟨hto', hcontra.1⟩
                have hmlt : 0 < mult links l'.from_node l'.to_node :=
                  mult_pos_of_mem hl'
                have h2 := @tpSum_two_le links l.from_node _ _ _
                  (outside_nodup htpqnd) hyout hout (fun he => hcontra.2 he.symm)
                rw [hgf] at hmlt
                have : (mult links l.from_node y : Int) +
                    (mult links l.from_node l'.to_node : Int) ≤
                    (tpSum links l.from_node (outside tpq Py) : Int) := by
                  exact_mod_cast h2
                omega
              subst hje
              rw [List.take_left]
              rcases hsplit with ⟨r0, hq⟩
              rcases htgt with h1 | h1
              · rw [hq]; exact List.mem_append_left _ h1
              · rw [hq, h1]; exact List.mem_append_right _ (List.mem_cons_self _ _))
        rcases hres with ⟨c1, c2, c3, c4, c5, c6, c7, c8⟩
        refine ⟨c1, ?_, c3, c4, c5, c6, c7, c8⟩
        rcases c2 with ⟨app, happ⟩
        exact ⟨l.from_node :: app, by rw [happ]; simp⟩
      · -- decrement without push
        have hred : kahnProcessLinks tpq (l :: rest) q count =
            kahnProcessLinks tpq rest q
              (fun x => if x = l.from_node then count x - 1 else count x) := by
          simp only [kahnProcessLinks, if_pos hftp, eq_self_iff_true, if_true,
            if_neg hz]
        rw [hred]
        exact ih q _
          hrestls hsplit hnd hsub hcnt1
          (by
            intro a ha
            have hst := hstall a ha
            have haf : a ≠ l.from_node := by
              intro he
              have := hst.1
              rw [he, cntFrom_cons] at this
              simp at this
            constructor
            · have := hst.1
              rw [cntFrom_cons] at this
              omega
            · show (if a = l.from_node then count a - 1 else count a) = 0
              rw [if_neg haf]
              exact hst.2)
          (by
            intro x hx hx0
            have hx0' : (if x = l.from_node then count x - 1 else count x) = 0 := hx0
            by_cases hxf : x = l.from_node
            · rw [if_pos hxf, hxf] at hx0'
              exact absurd hx0' hz
            · rw [if_neg hxf] at hx0'
              exact hpush x hx hx0')
          htopo
    · have hred : kahnProcessLinks tpq (l :: rest) q count =
          kahnProcessLinks tpq rest q count := by
        simp only [kahnProcessLinks, if_neg hftp]
      rw [hred]
      exact ih q count
        hrestls hsplit hnd hsub
        (by
          intro x hx
          have h1 := hcnt x hx
          have hfx : l.from_node ≠ x := fun he => hftp (he ▸ hx)
          rw [cntFrom_cons] at h1
          simpa [hfx] using h1)
        (by
          intro a ha
          have hst := hstall a ha
          have haf : l.from_node ≠ a := fun he => hftp (he ▸ hsub a ha)
          constructor
          · have := hst.1
            rw [cntFrom_cons] at this
            simpa [haf] using this
          · exact hst.2)
        hpush htopo

theorem kahnLoop_run (links : List ConstructionLink) (tpq : List Nat)
    (htpqnd : tpq.Nodup) :
    ∀ (fuel : Nat) (st : KState), KInv links tpq st →
    KInv links tpq (kahnLoop links tpq fuel st) ∧
    (tpq.length ≤ fuel + st.i →
      (kahnLoop links tpq fuel st).q.length ≤ (kahnLoop links tpq fuel st).i) := by
  intro fuel
  induction fuel with
  | zero =>
    intro st h
    constructor
    · simpa [kahnLoop] using h
    · intro hf
      simp only [kahnLoop]
      have := length_le_of_nodup_subset h.hnd h.hsub
      omega
  | succ n ih =>
    intro st h
    by_cases hlt : st.i < st.q.length
    · have hred : kahnLoop links tpq (n + 1) st =
          kahnLoop links tpq n
            ⟨(kahnProcessLinks tpq (linksTo links (st.q.get ⟨st.i, hlt⟩)) st.q st.count).1,
              st.i + 1,
              (kahnProcessLinks tpq (linksTo links (st.q.get ⟨st.i, hlt⟩)) st.q st.count).2⟩ := by
        simp only [kahnLoop, dif_pos hlt]
      have hymem : st.q.get ⟨st.i, hlt⟩ ∈ st.q := List.get_mem _ _ _
      have hytp : st.q.get ⟨st.i, hlt⟩ ∈ tpq := h.hsub _ hymem
      have hyPy : st.q.get ⟨st.i, hlt⟩ ∉ st.q.take st.i := by
        intro hmem
        rcases mem_take_index hmem with ⟨j, hj, hjlt, hget⟩
        have : (⟨j, hj⟩ : Fin st.q.length) = ⟨st.i, hlt⟩ :=
          (List.Nodup.get_inj_iff h.hnd).mp hget
        have : j = st.i := congrArg Fin.val this
        omega
      have hyout : st.q.get ⟨st.i, hlt⟩ ∈ outside tpq (st.q.take st.i) :=
        mem_outside.mpr ⟨hytp, hyPy⟩
      have hsplit : ∃ rest, st.q = st.q.take st.i ++ st.q.get ⟨st.i, hlt⟩ :: rest := by
        refine ⟨st.q.drop (st.i + 1), ?_⟩
        rw [← List.drop_eq_get_cons hlt, List.take_append_drop]
      have hspec := kahnProcessLinks_spec links tpq (st.q.get ⟨st.i, hlt⟩)
        (st.q.take st.i) htpqnd hytp hyPy
        (linksTo links (st.q.get ⟨st.i, hlt⟩)) st.q st.count
        (fun l hl => mem_linksTo.mp hl)
        hsplit h.hnd h.hsub
        (by
          intro x hx
          rw [h.hcnt x hx, cntFrom_linksTo]
          ring)
        (by
          intro a ha
          refine ⟨?_, h.hzero a ha⟩
          have hc := h.hcnt a (h.hsub a ha)
          rw [h.hzero a ha] at hc
          have hs0 : tpSum links a (outside tpq (st.q.take st.i)) = 0 := by
            exact_mod_cast hc.symm
          have hmle := @mult_le_tpSum links a _ _ hyout
          rw [cntFrom_linksTo]
          omega)
        h.hpush h.htopo
      rcases hspec with ⟨c1, c2, c3, c4, c5, c6, c7, c8⟩
      have htake : (kahnProcessLinks tpq (linksTo links (st.q.get ⟨st.i, hlt⟩))
          st.q st.count).1.take (st.i + 1) =
          st.q.take st.i ++ [st.q.get ⟨st.i, hlt⟩] := by
        rcases c2 with ⟨app, happ⟩
        rw [happ, List.take_append_of_le_length (by omega)]
        have hcg := List.take_concat_get st.q st.i hlt
        rw [List.concat_eq_append] at hcg
        rw [← hcg]
        simp [List.get_eq_getElem]
      have hinv2 : KInv links tpq
          ⟨(kahnProcessLinks tpq (linksTo links (st.q.get ⟨st.i, hlt⟩)) st.q st.count).1,
            st.i + 1,
            (kahnProcessLinks tpq (linksTo links (st.q.get ⟨st.i, hlt⟩)) st.q st.count).2⟩ := by
        refine ⟨?_, c3, c4, ?_, ?_, c7, c8⟩
        · dsimp only
          rcases c2 with ⟨app, happ⟩
          rw [happ]
          simp only [List.length_append]
          omega
        · intro x hx
          dsimp only
          rw [c5 x hx, htake]
          have hstep := @tpSum_outside_step links _ (st.q.take st.i) x _
            htpqnd hytp hyPy
          push_cast [hstep]
          ring
        · intro a ha
          exact c6 a ha
      have hres := ih _ hinv2
      rw [hred]
      refine ⟨hres.1, ?_⟩
      intro hf
      exact hres.2 (by dsimp only at hf ⊢; omega)
    · have hred : kahnLoop links tpq (n + 1) st = st := by
        simp only [kahnLoop, dif_neg hlt]
      rw [hred]
      exact ⟨h, fun _ => by omega⟩

theorem bfsLoop_measure (storage : List (Nat × Node)) (links : List ConstructionLink) :
    ∀ (fuel : Nat) (st : BState),
    (bfsLoop storage links fuel st).tpq.length +
      (outside (links.map (fun l => l.from_node)).dedup
        (bfsLoop storage links fuel st).tpq).length ≤
    st.tpq.length + (outside (links.map (fun l => l.from_node)).dedup st.tpq).length := by
  intro fuel
  induction fuel with
  | zero => intro st; simp [bfsLoop]
  | succ n ih =>
    intro st
    by_cases hlt : st.i < st.tpq.length
    · have hred : bfsLoop storage links (n + 1) st =
          bfsLoop storage links n
            ⟨(bfsProcessLinks storage (linksTo links (st.tpq.get ⟨st.i, hlt⟩)) st.tpq st.count).1,
              st.i + 1,
              (bfsProcessLinks storage (linksTo links (st.tpq.get ⟨st.i, hlt⟩)) st.tpq st.count).2⟩ := by
        simp only [bfsLoop, dif_pos hlt]
      rw [hred]
      have h1 := ih ⟨(bfsProcessLinks storage (linksTo links (st.tpq.get ⟨st.i, hlt⟩)) st.tpq st.count).1,
              st.i + 1,
              (bfsProcessLinks storage (linksTo links (st.tpq.get ⟨st.i, hlt⟩)) st.tpq st.count).2⟩
      have h2 := bfsProcessLinks_measure storage links
        (linksTo links (st.tpq.get ⟨st.i, hlt⟩)) st.tpq st.count
        (fun l hl => (mem_linksTo.mp hl).1)
      dsimp only at h1 ⊢
      omega
    · have hred : bfsLoop storage links (n + 1) st = st := by
        simp only [bfsLoop, dif_neg hlt]
      rw [hred]

theorem tpOf_length_le (storage : List (Nat × Node)) (links : List ConstructionLink) :
    (tpOf storage links).length ≤ loopFuel storage links := by
  have hms := bfsLoop_measure storage links (loopFuel storage links)
    ⟨seedsOf storage, 0, fun _ => 0⟩
  have h1 : (seedsOf storage).length ≤ storage.length := seedsOf_length_le storage
  have h2 : (outside (links.map (fun l => l.from_node)).dedup (seedsOf storage)).length
      ≤ links.length := by
    calc (outside (links.map (fun l => l.from_node)).dedup (seedsOf storage)).length
        ≤ (links.map (fun l => l.from_node)).dedup.length := List.length_filter_le _ _
      _ ≤ (links.map (fun l => l.from_node)).length := (List.dedup_sublist _).length_le
      _ = links.length := List.length_map _ _
  simp only [loopFuel] at hms ⊢
  simp only [tpOf, bfsRun, loopFuel]
  omega

/-- A non-deleted sink has no outgoing links when the batch has no
sink-sourced links. -/
theorem sink_no_out {storage : List (Nat × Node)} {links : List ConstructionLink}
    (hnss : noSinkSources storage links) {a : Nat}
    (hs : (getNodeD storage a).is_sink = true) :
    ∀ z, mult links a z = 0 := by
  intro z
  by_contra hc
  have hpos : 0 < mult links a z := Nat.pos_of_ne_zero hc
  rcases exists_link_of_mult_pos hpos with ⟨l, hlm, hlf, _⟩
  have := hnss l hlm
  rw [hlf, hs] at this
  cases this

theorem kahn_entry_inv {storage : List (Nat × Node)} {links : List ConstructionLink}
    (hk : keysNodup storage) (hnss : noSinkSources storage links) :
    KInv links (tpOf storage links)
      ⟨seedsOf storage, 0, c0Of storage links⟩ := by
  constructor
  case hle => simp
  case hnd => exact seedsOf_nodup hk
  case hsub =>
    intro a ha
    exact @tp_seeds storage links hk a ha
  case hcnt =>
    intro x hx
    dsimp only
    rw [tp_count hk x, tp_not_deleted hk x hx]
    simp [outside_nil]
  case hzero =>
    intro a ha
    dsimp only
    rw [tp_count hk a, tp_not_deleted hk a (@tp_seeds storage links hk a ha)]
    simp only [Bool.false_eq_true, if_false]
    have hza : tpSum links a (tpOf storage links) = 0 := by
      apply tpSum_eq_zero_iff.mpr
      intro z _
      exact sink_no_out hnss (seedsOf_is_sink hk ha) z
    simp [hza]
  case hpush =>
    intro x hx h0
    dsimp only at h0
    rw [tp_count hk x, tp_not_deleted hk x hx] at h0
    simp only [Bool.false_eq_true, if_false] at h0
    have hs0 : tpSum links x (tpOf storage links) = 0 := by exact_mod_cast h0
    rcases tp_origin hk x hx with hs | ⟨l, hlm, hlf, hlt⟩
    · exact hs
    · have hpos : 0 < mult links x l.to_node := by
        have := mult_pos_of_mem hlm
        rwa [hlf] at this
      have := @mult_le_tpSum links x _ _ hlt
      omega
  case htopo =>
    intro l hlm hto j hj hget
    have hsink := seedsOf_is_sink hk (List.get_mem (seedsOf storage) j hj)
    rw [hget] at hsink
    have := hnss l hlm
    rw [this] at hsink
    cases hsink

theorem kahn_final {storage : List (Nat × Node)} {links : List ConstructionLink}
    (hk : keysNodup storage) (hnss : noSinkSources storage links) :
    KInv links (tpOf storage links)
      (kahnRun storage links (tpOf storage links) (c0Of storage links)) ∧
    (kahnRun storage links (tpOf storage links) (c0Of storage links)).q.length ≤
      (kahnRun storage links (tpOf storage links) (c0Of storage links)).i := by
  have h := kahnLoop_run links (tpOf storage links) (tp_nodup hk)
    (loopFuel storage links) ⟨seedsOf storage, 0, c0Of storage links⟩
    (kahn_entry_inv hk hnss)
  exact ⟨h.1, h.2 (by
    have := tpOf_length_le storage links
    dsimp only
    omega)⟩

theorem qOf_nodup {storage : List (Nat × Node)} {links : List ConstructionLink}
    (hk : keysNodup storage) (hnss : noSinkSources storage links) :
    (qOf storage links).Nodup :=
  (kahn_final hk hnss).1.hnd

theorem qOf_sub {storage : List (Nat × Node)} {links : List ConstructionLink}
    (hk : keysNodup storage) (hnss : noSinkSources storage links) :
    ∀ a ∈ qOf storage links, a ∈ tpOf storage links :=
  (kahn_final hk hnss).1.hsub

theorem qOf_take_all {storage : List (Nat × Node)} {links : List ConstructionLink}
    (hk : keysNodup storage) (hnss : noSinkSources storage links) :
    (kahnRun storage links (tpOf storage links) (c0Of storage links)).q.take
      (kahnRun storage links (tpOf storage links) (c0Of storage links)).i =
    qOf storage links :=
  List.take_of_length_le (kahn_final hk hnss).2

theorem qOf_count {storage : List (Nat × Node)} {links : List ConstructionLink}
    (hk : keysNodup storage) (hnss : noSinkSources storage links) :
    ∀ x ∈ tpOf storage links,
    (kahnRun storage links (tpOf storage links) (c0Of storage links)).count x =
      (tpSum links x (outside (tpOf storage links) (qOf storage links)) : Int) := by
  intro x hx
  have := (kahn_final hk hnss).1.hcnt x hx
  rwa [qOf_take_all hk hnss] at this

theorem qOf_pushzero {storage : List (Nat × Node)} {links : List ConstructionLink}
    (hk : keysNodup storage) (hnss : noSinkSources storage links) :
    ∀ x ∈ tpOf storage links,
    tpSum links x (outside (tpOf storage links) (qOf storage links)) = 0 →
    x ∈ qOf storage links := by
  intro x hx h0
  apply (kahn_final hk hnss).1.hpush x hx
  rw [qOf_count hk hnss x hx]
  exact_mod_cast h0

theorem qOf_topo {storage : List (Nat × Node)} {links : List ConstructionLink}
    (hk : keysNodup storage) (hnss : noSinkSources storage links) :
    ∀ l ∈ links, l.to_node ∈ tpOf storage links →
    ∀ j, ∀ hj : j < (qOf storage links).length,
    (qOf storage links).get ⟨j, hj⟩ = l.from_node →
    l.to_node ∈ (qOf storage links).take j :=
  (kahn_final hk hnss).1.htopo

theorem filter_length_mono {L : List Nat} {p q : Nat → Bool}
    (himp : ∀ w, p w = true → q w = true) :
    (L.filter p).length ≤ (L.filter q).length := by
  induction L with
  | nil => simp
  | cons a rest ih =>
    by_cases hp : p a = true
    · have hq := himp a hp
      simp only [List.filter_cons, hp, hq, if_true, List.length_cons]
      omega
    · by_cases hq : q a = true
      · simp only [List.filter_cons, eq_false_of_ne_true hp, hq, if_true,
          Bool.false_eq_true, if_false, List.length_cons]
        have := ih
        omega
      · simp only [List.filter_cons, eq_false_of_ne_true hp, eq_false_of_ne_true hq,
          Bool.false_eq_true, if_false]
        exact ih

theorem filter_length_lt {L : List Nat} {p q : Nat → Bool}
    (himp : ∀ w, p w = true → q w = true) {z : Nat} (hz : z ∈ L)
    (hqz : q z = true) (hpz : p z = false) :
    (L.filter p).length < (L.filter q).length := by
  induction L with
  | nil => cases hz
  | cons a rest ih =>
    rcases List.mem_cons.mp hz with hza | hzr
    · rw [← hza]
      simp only [List.filter_cons, hqz, hpz, if_true, Bool.false_eq_true, if_false,
        List.length_cons]
      have := filter_length_mono (L := rest) himp
      omega
    · by_cases hp : p a = true
      · have hq := himp a hp
        simp only [List.filter_cons, hp, hq, if_true, List.length_cons]
        have := ih hzr
        omega
      · by_cases hq : q a = true
        · simp only [List.filter_cons, eq_false_of_ne_true hp, hq, if_true,
            Bool.false_eq_true, if_false, List.length_cons]
          have := ih hzr
          omega
        · simp only [List.filter_cons, eq_false_of_ne_true hp, eq_false_of_ne_true hq,
            Bool.false_eq_true, if_false]
          exact ih hzr

/-- Kahn completeness: on an acyclic batch with no sink-sourced links,
every node of `to_process` enters `q`. -/
theorem qOf_all {storage : List (Nat × Node)} {links : List ConstructionLink}
    (hk : keysNodup storage) (hnss : noSinkSources storage links) (r : Nat → Nat)
    (hr : ∀ l ∈ links, r l.from_node < r l.to_node) :
    ∀ x ∈ tpOf storage links, x ∈ qOf storage links := by
  suffices h : ∀ n, ∀ x ∈ tpOf storage links,
      ((tpOf storage links).filter (fun w => decide (r x < r w))).length < n →
      x ∈ qOf storage links by
    intro x hx
    exact h (((tpOf storage links).filter (fun w => decide (r x < r w))).length + 1)
      x hx (by omega)
  intro n
  induction n with
  | zero => intro x hx h0; omega
  | succ n ihn =>
    intro x hx hlen
    by_contra hxq
    have hne : tpSum links x (outside (tpOf storage links) (qOf storage links)) ≠ 0 :=
      fun h0 => hxq (qOf_pushzero hk hnss x hx h0)
    have hpos : 0 < tpSum links x (outside (tpOf storage links) (qOf storage links)) :=
      Nat.pos_of_ne_zero hne
    rcases tpSum_pos_mem hpos with ⟨z, hzout, hzm⟩
    rcases mem_outside.mp hzout with ⟨hztp, hzq⟩
    rcases exists_link_of_mult_pos hzm with ⟨l, hlm, hlf, hlt⟩
    have hrlt : r x < r z := by
      have := hr l hlm
      rwa [hlf, hlt] at this
    have hlt2 : ((tpOf storage links).filter (fun w => decide (r z < r w))).length <
        ((tpOf storage links).filter (fun w => decide (r x < r w))).length := by
      apply filter_length_lt (z := z)
      · intro w hw
        simp only [decide_eq_true_eq] at hw ⊢
        omega
      · exact hztp
      · simp [hrlt]
      · simp
    exact hzq (ihn z hztp (by omega))

theorem buildResult_eq (storage : List (Nat × Node)) (links : List ConstructionLink) :
    buildResult storage links =
    if (qOf storage links).length < (tpOf storage links).length then none
    else some ⟨(qOf storage links).reverse,
      finalRows storage links (tpOf storage links) (fun _ => 0) 0
        (qOf storage links).reverse⟩ := rfl

/-- On an acyclic batch with no sink-sourced links the cycle check
passes and the builder emits a graph. -/
theorem build_some {storage : List (Nat × Node)} {links : List ConstructionLink}
    (hk : keysNodup storage) (hnss : noSinkSources storage links)
    (r : Nat → Nat) (hr : ∀ l ∈ links, r l.from_node < r l.to_node) :
    buildResult storage links = some ⟨(qOf storage links).reverse,
      finalRows storage links (tpOf storage links) (fun _ => 0) 0
        (qOf storage links).reverse⟩ := by
  have hall := qOf_all hk hnss r hr
  have hlen : (tpOf storage links).length ≤ (qOf storage links).length :=
    length_le_of_nodup_subset (tp_nodup hk) hall
  rw [buildResult_eq]
  rw [if_neg (by omega)]

/-- If the batch has a cycle through nodes that can reach a sink (and no
sink-sourced links), the cycle check fires. -/
theorem build_none_of_cycle {storage : List (Nat × Node)} {links : List ConstructionLink}
    (hk : keysNodup storage) (hnss : noSinkSources storage links)
    (cs : List Nat) (hcs : isChainCycle links cs)
    (hreach : ∀ a ∈ cs, Reach storage links a) :
    buildResult storage links = none := by
  have hlenpos : 0 < cs.length := List.length_pos.mpr hcs.1
  have hsucc : ∀ a ∈ cs, ∃ b ∈ cs, ∃ l ∈ links, l.from_node = a ∧ l.to_node = b := by
    intro a ha
    rcases List.mem_iff_get.mp ha with ⟨⟨i, hi⟩, hget⟩
    rcases hcs.2 i hi with ⟨l, hlm, hlf, hlt⟩
    have hmod : (i + 1) % cs.length < cs.length := Nat.mod_lt _ hlenpos
    refine ⟨cs.getD ((i + 1) % cs.length) 0, ?_, l, hlm, ?_, hlt⟩
    · rw [List.getD_eq_get cs 0 hmod]
      exact List.get_mem _ _ _
    · rw [hlf, List.getD_eq_get cs 0 hi]
      exact hget
  have hnotin : ∀ j, ∀ hj : j < (qOf storage links).length,
      (qOf storage links).get ⟨j, hj⟩ ∉ cs := by
    intro j
    induction j using Nat.strong_induction_on with
    | _ j ihj =>
      intro hj hmem
      rcases hsucc _ hmem with ⟨b, hb, l, hlm, hlf, hlt⟩
      have hbtp : b ∈ tpOf storage links := tp_complete hk b (hreach b hb)
      have htk := qOf_topo hk hnss l hlm (by rw [hlt]; exact hbtp) j hj hlf.symm
      rcases mem_take_index htk with ⟨j2, hj2, hj2lt, hget2⟩
      exact ihj j2 hj2lt hj2 (by rw [hget2, hlt]; exact hb)
  rcases List.exists_mem_of_length_pos hlenpos with ⟨a, ha⟩
  have hatp : a ∈ tpOf storage links := tp_complete hk a (hreach a ha)
  have haq : a ∉ qOf storage links := by
    intro hmem
    rcases List.mem_iff_get.mp hmem with ⟨⟨j, hj⟩, hget⟩
    exact hnotin j hj (hget ▸ ha)
  have hlt : (qOf storage links).length < (tpOf storage links).length :=
    length_lt_of_nodup_ssubset (qOf_nodup hk hnss) (qOf_sub hk hnss) a hatp haq
  rw [buildResult_eq, if_pos hlt]

/-! ### Final collection pass -/

theorem subset_of_nodup_of_length_le {l₁ l₂ : List Nat} (h₁ : l₁.Nodup)
    (h₂ : l₂.Nodup) (hsub : ∀ a ∈ l₁, a ∈ l₂) (hlen : l₂.length ≤ l₁.length) :
    ∀ a ∈ l₂, a ∈ l₁ := by
  intro a ha
  by_contra hcontra
  have := length_lt_of_nodup_ssubset h₁ hsub a ha hcontra
  omega

theorem finalRows_length (storage : List (Nat × Node)) (links : List ConstructionLink)
    (tpq : List Nat) :
    ∀ (rem : List Nat) (nidx : Nat → Nat) (i : Nat),
    (finalRows storage links tpq nidx i rem).length = rem.length := by
  intro rem
  induction rem with
  | nil => intro nidx i; simp [finalRows]
  | cons id rest ih =>
    intro nidx i
    simp only [finalRows, List.length_cons]
    rw [ih]

theorem resolveRow_entries (tpq : List Nat) (nidx : Nat → Nat) (P : RLink → Prop) :
    ∀ (ls : List ConstructionLink) (row : List RLink),
    (∀ rl ∈ row, P rl) →
    (∀ l ∈ ls, l.from_node ∈ tpq → P ⟨true, nidx l.from_node, l.from_socket⟩) →
    ∀ rl ∈ resolveRow tpq nidx ls row, P rl := by
  intro ls
  induction ls with
  | nil =>
    intro row hrow _ rl hrl
    simpa [resolveRow] using hrow rl (by simpa [resolveRow] using hrl)
  | cons l rest ih =>
    intro row hrow hwr rl hrl
    by_cases hftp : l.from_node ∈ tpq
    · simp only [resolveRow, if_pos hftp] at hrl
      refine ih _ ?_ (fun l' hl' h' => hwr l' (List.mem_cons_of_mem _ hl') h') rl hrl
      intro rl' hrl'
      rcases List.mem_or_eq_of_mem_set hrl' with h1 | h1
      · exact hrow rl' h1
      · rw [h1]
        exact hwr l (List.mem_cons_self _ _) hftp
    · simp only [resolveRow, if_neg hftp] at hrl
      exact ih _ hrow (fun l' hl' h' => hwr l' (List.mem_cons_of_mem _ hl') h') rl hrl

theorem get_append_length {pre t : List Nat} {a : Nat}
    (h : pre.length < (pre ++ a :: t).length) :
    (pre ++ a :: t).get ⟨pre.length, h⟩ = a := by
  rw [List.get_eq_getElem]
  rw [List.getElem_append_right (Nat.le_refl pre.length)]
  simp

theorem finalRows_go_spec (storage : List (Nat × Node))
    (links : List ConstructionLink) (tpq : List Nat) (qr : List Nat)
    (hnd : qr.Nodup)
    (htopoR : ∀ l ∈ links, l.from_node ∈ tpq → ∀ i, ∀ hi : i < qr.length,
      l.to_node = qr.get ⟨i, hi⟩ →
      ∃ j, ∃ hj : j < qr.length, j < i ∧ qr.get ⟨j, hj⟩ = l.from_node) :
    ∀ (rem pre : List Nat) (nidx : Nat → Nat),
    qr = pre ++ rem →
    (∀ j, ∀ hj : j < qr.length, j < pre.length → nidx (qr.get ⟨j, hj⟩) = j) →
    ∀ d rl, rl ∈ (finalRows storage links tpq nidx pre.length rem).getD d [] →
      rl.present = true → rl.source_position < pre.length + d := by
  intro rem
  induction rem with
  | nil =>
    intro pre nidx hq hidx d rl hrl
    simp [finalRows] at hrl
  | cons id rest ih =>
    intro pre nidx hq hidx d rl hrl
    have hplen : pre.length < qr.length := by
      rw [hq, List.length_append, List.length_cons]
      omega
    have hplen2 : pre.length < (pre ++ id :: rest).length := by rw [← hq]; exact hplen
    have hid : qr.get ⟨pre.length, hplen⟩ = id := by
      rw [List.get_of_eq hq ⟨pre.length, hplen⟩]
      exact get_append_length hplen2
    have hidx' : ∀ j, ∀ hj : j < qr.length, j < pre.length + 1 →
        (fun x => if x = id then pre.length else nidx x) (qr.get ⟨j, hj⟩) = j := by
      intro j hj hjlt
      by_cases hje : j = pre.length
      · have hgid : qr.get ⟨j, hj⟩ = id := by
          have hfe : (⟨j, hj⟩ : Fin qr.length) = ⟨pre.length, hplen⟩ := Fin.ext hje
          rw [hfe]
          exact hid
        dsimp only
        rw [hgid, if_pos rfl, hje]
      · have hjlt2 : j < pre.length := by omega
        have hne : qr.get ⟨j, hj⟩ ≠ id := by
          intro he
          have hfe : (⟨j, hj⟩ : Fin qr.length) = ⟨pre.length, hplen⟩ :=
            (List.Nodup.get_inj_iff hnd).mp (he.trans hid.symm)
          have hji : j = pre.length := congrArg Fin.val hfe
          omega
        simp only [hne, if_false]
        exact hidx j hj hjlt2
    cases d with
    | zero =>
      simp only [finalRows, List.getD_cons_zero] at hrl
      intro hpres
      have hP := resolveRow_entries tpq
        (fun x => if x = id then pre.length else nidx x)
        (fun rl => rl.present = true → rl.source_position < pre.length)
        (linksTo links id)
        (List.replicate (getNodeD storage id).input_count ⟨false, 0, 0⟩)
        (by
          intro rl' hrl'
          have hdef := List.eq_of_mem_replicate hrl'
          rw [hdef]
          intro hcontra
          cases hcontra)
        (by
          intro l hl hftp
          intro _
          rcases mem_linksTo.mp hl with ⟨hlm, hlt⟩
          rcases htopoR l hlm hftp pre.length hplen (by rw [hlt, hid]) with
            ⟨j, hj, hjlt, hget⟩
          have hfne : l.from_node ≠ id := by
            rw [← hget]
            intro he
            have hfe : (⟨j, hj⟩ : Fin qr.length) = ⟨pre.length, hplen⟩ :=
              (List.Nodup.get_inj_iff hnd).mp (he.trans hid.symm)
            have hji : j = pre.length := congrArg Fin.val hfe
            omega
          have hval := hidx j hj hjlt
          dsimp only
          rw [if_neg hfne, ← hget, hval]
          exact hjlt)
        rl hrl
      have := hP hpres
      omega
    | succ d2 =>
      simp only [finalRows, List.getD_cons_succ] at hrl
      intro hpres
      have hq2 : qr = (pre ++ [id]) ++ rest := by rw [hq]; simp
      have hlen2 : (pre ++ [id]).length = pre.length + 1 := by simp
      have hres := ih (pre ++ [id]) (fun x => if x = id then pre.length else nidx x)
        hq2 (by rw [hlen2]; exact hidx') d2 rl (by rwa [hlen2]) hpres
      rw [hlen2] at hres
      omega

/-- Translation of the topological property to the reversed (final)
order: when all of `to_process` entered `q`, every resolved source sits
strictly earlier in the final order than its consumer. -/
theorem qr_topo {storage : List (Nat × Node)} {links : List ConstructionLink}
    (hk : keysNodup storage) (hnss : noSinkSources storage links)
    (hsub2 : ∀ a ∈ tpOf storage links, a ∈ qOf storage links) :
    ∀ l ∈ links, l.from_node ∈ tpOf storage links →
    ∀ i, ∀ hi : i < (qOf storage links).reverse.length,
      l.to_node = (qOf storage links).reverse.get ⟨i, hi⟩ →
      ∃ j, ∃ hj : j < (qOf storage links).reverse.length,
        j < i ∧ (qOf storage links).reverse.get ⟨j, hj⟩ = l.from_node := by
  intro l hlm hftp i hi hto
  have hn : i < (qOf storage links).length := by
    rw [← List.length_reverse (qOf storage links)]
    exact hi
  have hfq : l.from_node ∈ qOf storage links := hsub2 _ hftp
  rcases List.mem_iff_get.mp hfq with ⟨⟨jx, hjx⟩, hgetx⟩
  have hrevlen : (qOf storage links).reverse.length = (qOf storage links).length :=
    List.length_reverse _
  have hn1 : (qOf storage links).length - 1 - i < (qOf storage links).length := by
    omega
  have hrev : (qOf storage links).reverse.get ⟨i, hi⟩ =
      (qOf storage links).get ⟨(qOf storage links).length - 1 - i, hn1⟩ := by
    exact List.get_reverse' _ _ _
  have htomem : l.to_node ∈ qOf storage links := by
    rw [hto, hrev]
    exact List.get_mem _ _ _
  have htotp : l.to_node ∈ tpOf storage links := qOf_sub hk hnss _ htomem
  have htk := qOf_topo hk hnss l hlm htotp jx hjx hgetx
  rcases mem_take_index htk with ⟨j2, hj2, hj2lt, hget2⟩
  have hj2e : j2 = (qOf storage links).length - 1 - i := by
    have he : (qOf storage links).get ⟨j2, hj2⟩ =
        (qOf storage links).get ⟨(qOf storage links).length - 1 - i, hn1⟩ := by
      rw [hget2, hto, hrev]
    have hfe := (List.Nodup.get_inj_iff (qOf_nodup hk hnss)).mp he
    exact congrArg Fin.val hfe
  have hjlt : (qOf storage links).length - 1 - i < jx := by omega
  have hjx1 : (qOf storage links).length - 1 - jx < (qOf storage links).reverse.length := by
    omega
  refine ⟨(qOf storage links).length - 1 - jx, hjx1, by omega, ?_⟩
  have hn2 : (qOf storage links).length - 1 -
      ((qOf storage links).length - 1 - jx) < (qOf storage links).length := by
    omega
  have hrev2 : (qOf storage links).reverse.get
      ⟨(qOf storage links).length - 1 - jx, hjx1⟩ =
      (qOf storage links).get ⟨(qOf storage links).length - 1 -
        ((qOf storage links).length - 1 - jx), hn2⟩ := List.get_reverse' _ _ _
  rw [hrev2]
  have hfe : (⟨(qOf storage links).length - 1 -
      ((qOf storage links).length - 1 - jx), hn2⟩ : Fin (qOf storage links).length) =
      ⟨jx, hjx⟩ := by
    apply Fin.ext
    show (qOf storage links).length - 1 - ((qOf storage links).length - 1 - jx) = jx
    omega
  rw [hfe]
  exact hgetx

/-- The resolved links of a successfully built graph point strictly
backwards in the final order (for batches with no sink-sourced links). -/
theorem built_tree_topo {storage : List (Nat × Node)} {links : List ConstructionLink}
    (hk : keysNodup storage) (hnss : noSinkSources storage links)
    (r : Nat → Nat) (hr : ∀ l ∈ links, r l.from_node < r l.to_node) :
    ∀ d rl, rl ∈ (finalRows storage links (tpOf storage links) (fun _ => 0) 0
        (qOf storage links).reverse).getD d [] →
      rl.present = true → rl.source_position < d := by
  have h := finalRows_go_spec storage links (tpOf storage links)
    (qOf storage links).reverse
    ((List.nodup_reverse).mpr (qOf_nodup hk hnss))
    (fun l hlm hftp i hi hto => qr_topo hk hnss (qOf_all hk hnss r hr)
      l hlm hftp i hi hto)
    (qOf storage links).reverse [] (fun _ => 0) (by simp)
    (by intro j hj hcontra; simp at hcontra)
  intro d rl hrl hpres
  have := h d rl (by simpa using hrl) hpres
  simpa using this

/-! ### Facts that hold for every batch (no sink-restriction) -/

theorem kahnProcessLinks_sub (tpq : List Nat) :
    ∀ (ls : List ConstructionLink) (q : List Nat) (count : Nat → Int),
    (∀ a ∈ q, a ∈ tpq) →
    ∀ a ∈ (kahnProcessLinks tpq ls q count).1, a ∈ tpq := by
  intro ls
  induction ls with
  | nil => intro q count h a ha; exact h a (by simpa [kahnProcessLinks] using ha)
  | cons l rest ih =>
    intro q count h a ha
    by_cases hftp : l.from_node ∈ tpq
    · by_cases hz : count l.from_node - 1 = 0
      · have hred : kahnProcessLinks tpq (l :: rest) q count =
            kahnProcessLinks tpq rest (q ++ [l.from_node])
              (fun x => if x = l.from_node then count x - 1 else count x) := by
          simp only [kahnProcessLinks, if_pos hftp, eq_self_iff_true, if_true,
            if_pos hz]
        rw [hred] at ha
        refine ih _ _ ?_ a ha
        intro b hb
        rcases List.mem_append.mp hb with h1 | h1
        · exact h b h1
        · rw [List.mem_singleton.mp h1]; exact hftp
      · have hred : kahnProcessLinks tpq (l :: rest) q count =
            kahnProcessLinks tpq rest q
              (fun x => if x = l.from_node then count x - 1 else count x) := by
          simp only [kahnProcessLinks, if_pos hftp, eq_self_iff_true, if_true,
            if_neg hz]
        rw [hred] at ha
        exact ih _ _ h a ha
    · have hred : kahnProcessLinks tpq (l :: rest) q count =
          kahnProcessLinks tpq rest q count := by
        simp only [kahnProcessLinks, if_neg hftp]
      rw [hred] at ha
      exact ih _ _ h a ha

theorem kahnLoop_sub (links : List ConstructionLink) (tpq : List Nat) :
    ∀ (fuel : Nat) (st : KState), (∀ a ∈ st.q, a ∈ tpq) →
    ∀ a ∈ (kahnLoop links tpq fuel st).q, a ∈ tpq := by
  intro fuel
  induction fuel with
  | zero => intro st h a ha; exact h a (by simpa [kahnLoop] using ha)
  | succ n ih =>
    intro st h a ha
    by_cases hlt : st.i < st.q.length
    · have hred : kahnLoop links tpq (n + 1) st =
          kahnLoop links tpq n
            ⟨(kahnProcessLinks tpq (linksTo links (st.q.get ⟨st.i, hlt⟩)) st.q st.count).1,
              st.i + 1,
              (kahnProcessLinks tpq (linksTo links (st.q.get ⟨st.i, hlt⟩)) st.q st.count).2⟩ := by
        simp only [kahnLoop, dif_pos hlt]
      rw [hred] at ha
      exact ih _ (kahnProcessLinks_sub tpq _ _ _ h) a ha
    · have hred : kahnLoop links tpq (n + 1) st = st := by
        simp only [kahnLoop, dif_neg hlt]
      rw [hred] at ha
      exact h a ha

theorem bfsLoop_mono (storage : List (Nat × Node)) (links : List ConstructionLink) :
    ∀ (fuel : Nat) (st : BState) (a : Nat), a ∈ st.tpq →
    a ∈ (bfsLoop storage links fuel st).tpq := by
  intro fuel
  induction fuel with
  | zero => intro st a ha; simpa [bfsLoop] using ha
  | succ n ih =>
    intro st a ha
    by_cases hlt : st.i < st.tpq.length
    · have hred : bfsLoop storage links (n + 1) st =
          bfsLoop storage links n
            ⟨(bfsProcessLinks storage (linksTo links (st.tpq.get ⟨st.i, hlt⟩)) st.tpq st.count).1,
              st.i + 1,
              (bfsProcessLinks storage (linksTo links (st.tpq.get ⟨st.i, hlt⟩)) st.tpq st.count).2⟩ := by
        simp only [bfsLoop, dif_pos hlt]
      rw [hred]
      exact ih _ a (bfsProcessLinks_mono storage _ _ _ a ha)
    · have hred : bfsLoop storage links (n + 1) st = st := by
        simp only [bfsLoop, dif_neg hlt]
      rw [hred]
      exact ha

theorem seeds_subset_tp (storage : List (Nat × Node)) (links : List ConstructionLink) :
    ∀ a ∈ seedsOf storage, a ∈ tpOf storage links := by
  intro a ha
  exact bfsLoop_mono storage links _ _ a ha

/-- Without any well-formedness hypotheses: everything the topological
pass schedules lies in `to_process`. -/
theorem qOf_subset_tp (storage : List (Nat × Node)) (links : List ConstructionLink) :
    ∀ a ∈ qOf storage links, a ∈ tpOf storage links := by
  intro a ha
  exact kahnLoop_sub links (tpOf storage links) _ _
    (fun b hb => seeds_subset_tp storage links b hb) a ha

/-! ### Storage update and callback pass lemmas -/

theorem markVisit_idem (n : Node) : markVisit (markVisit n) = markVisit n := rfl

theorem lookup_map_keyfix (g : Nat → Node → Node) :
    ∀ (storage : List (Nat × Node)) (id : Nat),
    lookupNode (storage.map (fun p => (p.1, g p.1 p.2))) id =
      (lookupNode storage id).map (fun n => g id n) := by
  intro storage
  induction storage with
  | nil => intro id; simp [lookupNode]
  | cons p rest ih =>
    intro id
    by_cases hp : p.1 = id
    · simp only [lookupNode, List.map_cons, List.find?_cons]
      have hb : (p.1 == id) = true := by simp [hp]
      simp [hb, hp]
    · have hb : (p.1 == id) = false := by simp [hp]
      simp only [lookupNode, List.map_cons, List.find?_cons, hb]
      exact ih id

theorem updateNode_eq_map (storage : List (Nat × Node)) (id : Nat) (f : Node → Node) :
    updateNode storage id f =
      storage.map (fun p => (p.1, if p.1 = id then f p.2 else p.2)) := by
  unfold updateNode
  apply List.map_congr_left
  intro p _
  by_cases hp : p.1 = id <;> simp [hp]

theorem lookup_updateNode (storage : List (Nat × Node)) (id : Nat) (f : Node → Node)
    (id' : Nat) :
    lookupNode (updateNode storage id f) id' =
      if id' = id then (lookupNode storage id').map f else lookupNode storage id' := by
  rw [updateNode_eq_map]
  rw [lookup_map_keyfix (fun k n => if k = id then f n else n) storage id']
  by_cases h : id' = id
  · simp [h]
  · simp only [h, if_false]
    cases lookupNode storage id' <;> simp [h]

theorem keys_updateNode (storage : List (Nat × Node)) (id : Nat) (f : Node → Node) :
    storageKeys (updateNode storage id f) = storageKeys storage := by
  rw [updateNode_eq_map]
  unfold storageKeys
  rw [List.map_map]
  apply List.map_congr_left
  intro p _
  rfl

theorem keys_connectPass (storage : List (Nat × Node)) :
    ∀ order : List Nat, storageKeys (connectPass storage order).1 = storageKeys storage := by
  intro order
  induction order generalizing storage with
  | nil => simp [connectPass]
  | cons o rest ih =>
    simp only [connectPass]
    rw [ih (updateNode storage o markVisit), keys_updateNode]

theorem connectPass_lookup (storage : List (Nat × Node)) :
    ∀ (order : List Nat) (id : Nat),
    lookupNode (connectPass storage order).1 id =
      if id ∈ order then (lookupNode storage id).map markVisit
      else lookupNode storage id := by
  intro order
  induction order generalizing storage with
  | nil => intro id; simp [connectPass]
  | cons o rest ih =>
    intro id
    simp only [connectPass]
    rw [ih (updateNode storage o markVisit) id, lookup_updateNode]
    by_cases hio : id = o
    · subst hio
      by_cases hir : id ∈ rest
      · rw [if_pos hir, if_pos rfl, if_pos (List.mem_cons_self _ _)]
        cases lookupNode storage id <;> simp [markVisit_idem]
      · rw [if_neg hir, if_pos rfl, if_pos (List.mem_cons_self _ _)]
    · by_cases hir : id ∈ rest
      · rw [if_pos hir, if_neg hio, if_pos (List.mem_cons.mpr (Or.inr hir))]
      · rw [if_neg hir, if_neg hio, if_neg (by simp [List.mem_cons, hio, hir])]

theorem connectPass_events_count (storage : List (Nat × Node)) :
    ∀ (order : List Nat) (id : Nat),
    (∀ a ∈ order, a ∈ storageKeys storage) →
    (connectPass storage order).2.count id =
      if id ∈ order ∧ (getNodeD storage id).mark_connected = false then 1 else 0 := by
  intro order
  induction order generalizing storage with
  | nil => intro id _; simp [connectPass]
  | cons o rest ih =>
    intro id horder
    have hok : o ∈ storageKeys storage := horder o (List.mem_cons_self _ _)
    have hrest : ∀ a ∈ rest, a ∈ storageKeys (updateNode storage o markVisit) := by
      intro a ha
      rw [keys_updateNode]
      exact horder a (List.mem_cons_of_mem _ ha)
    rcases Option.isSome_iff_exists.mp (lookupNode_isSome_iff.mpr hok) with ⟨no, hno⟩
    simp only [connectPass, List.count_append]
    rw [ih (updateNode storage o markVisit) id hrest]
    by_cases hio : id = o
    · subst hio
      have hlk : lookupNode (updateNode storage id markVisit) id =
          some (markVisit no) := by
        rw [lookup_updateNode, if_pos rfl, hno]
        rfl
      have hconn1 : (getNodeD (updateNode storage id markVisit) id).mark_connected = true := by
        rw [getNodeD_eq hlk]
        rfl
      simp only [hconn1]
      have h2 : ¬ (id ∈ rest ∧ (true : Bool) = false) := by
        rintro ⟨_, h⟩; cases h
      rw [if_neg h2]
      by_cases hcf : (getNodeD storage id).mark_connected = false
      · rw [if_pos (show (!(getNodeD storage id).mark_connected) = true by rw [hcf]; rfl),
          if_pos ⟨List.mem_cons_self _ _, hcf⟩]
        simp
      · rw [if_neg (show ¬ (!(getNodeD storage id).mark_connected) = true by
            intro h; rw [Bool.not_eq_true'] at h; exact hcf h),
          if_neg (fun hand => hcf hand.2)]
        simp
    · have hlk : lookupNode (updateNode storage o markVisit) id =
          lookupNode storage id := by
        rw [lookup_updateNode, if_neg hio]
      have hgd : getNodeD (updateNode storage o markVisit) id = getNodeD storage id := by
        unfold getNodeD
        rw [hlk]
      rw [hgd]
      have hpre : List.count id (if !(getNodeD storage o).mark_connected then [o] else []) = 0 := by
        by_cases hc : !(getNodeD storage o).mark_connected
        · rw [if_pos hc, List.count_eq_zero]
          simp [hio]
        · simp [hc]
      rw [hpre]
      by_cases hir : id ∈ rest
      · simp [List.mem_cons, hio, hir]
      · simp [List.mem_cons, hio, hir]

theorem connectPass_events_sub (storage : List (Nat × Node)) :
    ∀ (order : List Nat) (id : Nat), id ∈ (connectPass storage order).2 → id ∈ order := by
  intro order
  induction order generalizing storage with
  | nil => intro id h; simpa [connectPass] using h
  | cons o rest ih =>
    intro id h
    simp only [connectPass, List.mem_append] at h
    rcases h with h1 | h1
    · by_cases hc : !(getNodeD storage o).mark_connected
      · rw [if_pos hc] at h1
        rw [List.mem_singleton.mp h1]
        exact List.mem_cons_self _ _
      · rw [if_neg hc] at h1
        cases h1
    · exact List.mem_cons_of_mem _ (ih (updateNode storage o markVisit) id h1)

theorem lookup_disconnectPass (storage : List (Nat × Node)) (id : Nat) :
    lookupNode (disconnectPass storage).1 id = (lookupNode storage id).map dcUpdate := by
  unfold disconnectPass
  exact lookup_map_keyfix (fun _ n => dcUpdate n) storage id

theorem disconnectPass_events_iff (storage : List (Nat × Node))
    (hk : keysNodup storage) (id : Nat) :
    id ∈ (disconnectPass storage).2 ↔
      ∃ n, lookupNode storage id = some n ∧ n.tmp_connected = false ∧
        n.mark_connected = true := by
  unfold disconnectPass
  constructor
  · intro h
    rcases List.mem_map.mp h with ⟨p, hp, he⟩
    rw [List.mem_filter] at hp
    have hcond := hp.2
    simp only [Bool.and_eq_true, Bool.not_eq_true'] at hcond
    refine ⟨p.2, ?_, hcond.1, hcond.2⟩
    rw [← he]
    apply mem_lookupNode hk
    have hpe : (p.1, p.2) = p := by cases p; rfl
    rw [hpe]
    exact hp.1
  · rintro ⟨n, hn, ht, hc⟩
    refine List.mem_map.mpr ⟨(id, n), List.mem_filter.mpr ⟨lookupNode_mem hn, ?_⟩, rfl⟩
    simp [ht, hc]

theorem disconnectPass_events_nodup (storage : List (Nat × Node))
    (hk : keysNodup storage) : (disconnectPass storage).2.Nodup := by
  unfold disconnectPass
  have hsub : ((storage.filter (fun p => !p.2.tmp_connected && p.2.mark_connected)).map
      (fun p => p.1)).Sublist (storageKeys storage) :=
    (List.filter_sublist storage).map (fun p => p.1)
  exact hsub.nodup hk

theorem lookup_filter_ne (m : Nat) :
    ∀ (storage : List (Nat × Node)) (id : Nat),
    lookupNode (storage.filter (fun p => p.1 != m)) id =
      if id = m then none else lookupNode storage id := by
  intro storage
  induction storage with
  | nil => intro id; simp [lookupNode]
  | cons p rest ih =>
    intro id
    by_cases hpm : p.1 = m
    · have hc : (p.1 != m) = false := by simp [hpm]
      simp only [List.filter_cons, hc, Bool.false_eq_true, if_false]
      rw [ih id]
      by_cases him : id = m
      · simp [him]
      · have hb : (p.1 == id) = false := by
          simp only [beq_eq_false_iff_ne]
          intro he
          exact him (he ▸ hpm)
        simp only [him, if_false, lookupNode, List.find?_cons, hb]
    · have hc : (p.1 != m) = true := by simp [hpm]
      simp only [List.filter_cons, hc, if_true]
      by_cases hpid : p.1 = id
      · have hb : (p.1 == id) = true := by simp [hpid]
        have him : id ≠ m := fun he => hpm (hpid.trans he)
        simp [lookupNode, List.find?_cons, hb, him]
      · have hb : (p.1 == id) = false := by simp [hpid]
        simp only [lookupNode, List.find?_cons, hb]
        have := ih id
        simpa [lookupNode] using this

theorem lookup_erasePass :
    ∀ (marked : List Nat) (storage : List (Nat × Node)) (id : Nat),
    lookupNode (erasePass storage marked) id =
      if id ∈ marked then none else lookupNode storage id := by
  intro marked
  induction marked with
  | nil => intro storage id; simp [erasePass]
  | cons m rest ih =>
    intro storage id
    simp only [erasePass, List.foldl_cons]
    have : Audionodes.erasePass (List.filter (fun p => p.1 != m) storage) rest =
        List.foldl (fun s id => s.filter (fun p => p.1 != id))
          (List.filter (fun p => p.1 != m) storage) rest := rfl
    rw [← this, ih, lookup_filter_ne]
    by_cases h1 : id ∈ rest
    · simp [h1, List.mem_cons]
    · by_cases h2 : id = m
      · simp [h1, h2, List.mem_cons]
      · simp [h1, h2, List.mem_cons]

/-! ### Whole-call unfoldings of `audionodes_finish_tree_update` -/

theorem finish_success {st : EngineState} {links : List ConstructionLink} {nt : NodeTree}
    (hb : buildResult st.storage links = some nt) :
    audionodes_finish_tree_update st links =
      (⟨erasePass (disconnectPass (connectPass st.storage nt.order).1).1 (markedOf st.storage),
         st.counter, some nt, st.queue, st.node_types⟩,
       (connectPass st.storage nt.order).2.map BEvent.connect ++ [BEvent.install]
         ++ (disconnectPass (connectPass st.storage nt.order).1).2.map BEvent.disconnect
         ++ (markedOf st.storage).map BEvent.free,
       true) := by
  unfold audionodes_finish_tree_update
  rw [hb]

theorem finish_fail {st : EngineState} {links : List ConstructionLink}
    (hb : buildResult st.storage links = none) :
    audionodes_finish_tree_update st links = (st, [BEvent.errorLoop], false) := by
  unfold audionodes_finish_tree_update
  rw [hb]

theorem build_dest {storage : List (Nat × Node)} {links : List ConstructionLink}
    {nt : NodeTree} (hb : buildResult storage links = some nt) :
    nt = ⟨(qOf storage links).reverse,
      finalRows storage links (tpOf storage links) (fun _ => 0)
        0 (qOf storage links).reverse⟩ := by
  rw [buildResult_eq] at hb
  by_cases h : (qOf storage links).length < (tpOf storage links).length
  · rw [if_pos h] at hb; cases hb
  · rw [if_neg h] at hb
    exact (Option.some.inj hb).symm

theorem build_of_success {st : EngineState} {links : List ConstructionLink} {nt : NodeTree}
    (hnt : (audionodes_finish_tree_update st links).1.tree = some nt)
    (hsucc : (audionodes_finish_tree_update st links).2.2 = true) :
    buildResult st.storage links = some nt := by
  cases hb : buildResult st.storage links with
  | none =>
    rw [finish_fail hb] at hsucc
    cases hsucc
  | some nt2 =>
    rw [finish_success hb] at hnt
    dsimp only at hnt
    exact hnt

/-! ### Counting constructor-tagged events -/

theorem count_map_eq {f : Nat → BEvent} (hf : ∀ a b, f a = f b → a = b)
    (l : List Nat) (id : Nat) : (l.map f).count (f id) = l.count id := by
  induction l with
  | nil => rfl
  | cons a rest ih =>
    rw [List.map_cons, List.count_cons, List.count_cons, ih]
    by_cases h : a = id
    · subst h; simp
    · have h2 : f a ≠ f id := fun he => h (hf a id he)
      simp [h, h2]

theorem count_map_eq_zero {f : Nat → BEvent} {e : BEvent}
    (h : ∀ a, f a ≠ e) (l : List Nat) : (l.map f).count e = 0 :=
  List.count_eq_zero_of_not_mem (fun hm => by
    rcases List.mem_map.mp hm with ⟨a, _, hfa⟩
    exact h a hfa)

theorem count_install_zero (e : BEvent) (h : e ≠ BEvent.install) :
    List.count e [BEvent.install] = 0 :=
  List.count_eq_zero_of_not_mem (fun hm => h (List.mem_singleton.mp hm))

/-! ### The sample conversion -/

theorem truncToInt_eq (q : ℚ) : truncToInt q = if 0 ≤ q then ⌊q⌋ else ⌈q⌉ := by
  unfold truncToInt
  by_cases h : 0 ≤ q
  · rw [if_pos h, if_pos h]
    rfl
  · rw [if_neg h, if_neg h]
    have hfl : (-q).floor = ⌊-q⌋ := rfl
    rw [hfl, Int.floor_neg, neg_neg]

theorem sample_range (v : ℚ) :
    minimum_value ≤ sample_to_output v ∧ sample_to_output v ≤ maximum_value := by
  unfold sample_to_output minimum_value maximum_value
  by_cases h1 : v < -1
  · rw [if_pos h1]
    exact ⟨le_refl _, by norm_num⟩
  · rw [if_neg h1]
    by_cases h2 : 1 ≤ v
    · rw [if_pos h2]
      exact ⟨by norm_num, le_refl _⟩
    · rw [if_neg h2, truncToInt_eq]
      by_cases h3 : (0 : ℚ) ≤ v * 32767
      · rw [if_pos h3]
        constructor
        · have h4 := Int.floor_nonneg.mpr h3
          omega
        · have hlt : v * 32767 < ((32767 : Int) : ℚ) := by
            have hv1 : v < 1 := lt_of_not_le h2
            push_cast
            nlinarith
          have h5 := Int.floor_lt.mpr hlt
          omega
      · rw [if_neg h3]
        constructor
        · have hge : ((-32767 : Int) : ℚ) ≤ v * 32767 := by
            have hv1 : (-1 : ℚ) ≤ v := le_of_not_lt h1
            push_cast
            nlinarith
          have h4 := Int.le_ceil (v * 32767)
          have h5 : ((-32767 : Int) : ℚ) ≤ (⌈v * 32767⌉ : ℚ) := le_trans hge h4
          have h6 : (-32767 : Int) ≤ ⌈v * 32767⌉ := by exact_mod_cast h5
          omega
        · have h7 : v * 32767 ≤ ((0 : Int) : ℚ) := by
            have := le_of_lt (not_le.mp h3)
            exact_mod_cast this
          have h8 := Int.ceil_le.mpr h7
          omega

theorem sample_at_neg_one : sample_to_output (-1) = -32767 := by
  unfold sample_to_output
  rw [if_neg (by norm_num), if_neg (by norm_num), truncToInt_eq,
    if_neg (by norm_num),
    show ((-1 : ℚ) * 32767) = ((-32767 : Int) : ℚ) by norm_num,
    Int.ceil_intCast]

theorem block_exG : block_to_output exG_block =
    [-32768, -32767, 0, 16383, 32767, 32767] := by
  have h1 : sample_to_output (-2) = -32768 := by
    unfold sample_to_output minimum_value
    rw [if_pos (by norm_num)]
  have h3 : sample_to_output 0 = 0 := by
    unfold sample_to_output
    rw [if_neg (by norm_num), if_neg (by norm_num), truncToInt_eq,
      if_pos (by norm_num),
      show ((0 : ℚ) * 32767) = ((0 : Int) : ℚ) by norm_num,
      Int.floor_intCast]
  have h4 : sample_to_output (1 / 2) = 16383 := by
    unfold sample_to_output
    rw [if_neg (by norm_num), if_neg (by norm_num), truncToInt_eq,
      if_pos (by norm_num), Int.floor_eq_iff]
    constructor
    · norm_num
    · norm_num
  have h5 : sample_to_output 1 = 32767 := by
    unfold sample_to_output maximum_value
    rw [if_neg (by norm_num), if_pos (by norm_num)]
  have h6 : sample_to_output 2 = 32767 := by
    unfold sample_to_output maximum_value
    rw [if_neg (by norm_num), if_pos (by norm_num)]
  show [sample_to_output (-2), sample_to_output (-1), sample_to_output 0,
    sample_to_output (1 / 2), sample_to_output 1, sample_to_output 2] = _
  rw [h1, sample_at_neg_one, h3, h4, h5, h6]


/-! ### The claims -/

/-- C1 (corrected): on an acyclic batch with no link leaving a sink node,
the graph installed by `audionodes_finish_tree_update` places every
producer strictly before its consumers: every present resolved link of the
node at position `i` has `source_position < i`. Without the
no-sink-source restriction the property fails, see the counterexample. -/
theorem C1_producer_before_consumer {st : EngineState} {links : List ConstructionLink}
    {nt : NodeTree} (hk : keysNodup st.storage)
    (hnss : noSinkSources st.storage links)
    (r : Nat → Nat) (hr : ∀ l ∈ links, r l.from_node < r l.to_node)
    (hnt : (audionodes_finish_tree_update st links).1.tree = some nt) :
    ∀ i rl, rl ∈ nt.rlinks.getD i [] → rl.present = true → rl.source_position < i := by
  have hb := build_some hk hnss r hr
  have htree : (audionodes_finish_tree_update st links).1.tree =
      some ⟨(qOf st.storage links).reverse,
        finalRows st.storage links (tpOf st.storage links) (fun _ => 0)
          0 (qOf st.storage links).reverse⟩ := by
    rw [finish_success hb]
  rw [hnt] at htree
  have he := Option.some.inj htree
  rw [he]
  dsimp only
  exact built_tree_topo hk hnss r hr

/-- C1 witness: the producer-sink scenario `0 → 1` checked at its concrete
input. -/
theorem C1_producer_before_consumer_witness :
    keysNodup (mkState exD_storage).storage ∧
    noSinkSources (mkState exD_storage).storage exD_links ∧
    (∀ l ∈ exD_links, l.from_node < l.to_node) ∧
    (audionodes_finish_tree_update (mkState exD_storage) exD_links).1.tree =
      some ⟨[0, 1], [[], [⟨true, 0, 0⟩]]⟩ ∧
    ∀ i rl, rl ∈ (⟨[0, 1], [[], [⟨true, 0, 0⟩]]⟩ : NodeTree).rlinks.getD i [] →
      rl.present = true → rl.source_position < i := by
  refine ⟨by unfold keysNodup storageKeys; decide, by unfold noSinkSources; decide,
    by decide, by decide, ?_⟩
  exact @C1_producer_before_consumer (mkState exD_storage) exD_links
    ⟨[0, 1], [[], [⟨true, 0, 0⟩]]⟩ (by unfold keysNodup storageKeys; decide)
    (by unfold noSinkSources; decide) (fun x => x) (by decide) (by decide)

/-- C1 counterexample: the batch `2 → 1, 1 → 3, 3 → 0` over the sinks `0`
and `1` is acyclic (witnessed by `exA_rank`), yet the built graph schedules
sink `1` twice, and the row of the node at position `0` holds a present
resolved link with `source_position = 0`, which is not `< 0`. -/
theorem C1_original_counterexample :
    (∀ l ∈ exA_links, exA_rank l.from_node < exA_rank l.to_node) ∧
    buildResult exA_storage exA_links = some exA_tree ∧
    (exA_tree.rlinks.getD 0 []).getD 0 ⟨false, 0, 0⟩ = (⟨true, 0, 0⟩ : RLink) ∧
    ¬ ((exA_tree.rlinks.getD 0 []).getD 0 ⟨false, 0, 0⟩).source_position < 0 ∧
    ¬ exA_tree.order.Nodup := by
  refine ⟨by decide, by decide, by decide, by decide, by decide⟩

/-- C2 (corrected): on a batch with no link leaving a sink node, a cycle
among nodes that can reach a non-deleted sink makes
`audionodes_finish_tree_update` report the loop and return with the state,
active graph included, unchanged. Without the restriction the cycle check
can be defeated, see the counterexample. -/
theorem C2_cycle_reported {st : EngineState} {links : List ConstructionLink}
    (hk : keysNodup st.storage) (hnss : noSinkSources st.storage links)
    (cs : List Nat) (hcs : isChainCycle links cs)
    (hreach : ∀ a ∈ cs, Reach st.storage links a) :
    audionodes_finish_tree_update st links = (st, [BEvent.errorLoop], false) :=
  finish_fail (build_none_of_cycle hk hnss cs hcs hreach)

/-- C2 witness: the reachable cycle `1 ↔ 2` behind sink `0` fails the build
and leaves the state untouched. -/
theorem C2_cycle_reported_witness :
    keysNodup (mkState exE_storage).storage ∧
    noSinkSources (mkState exE_storage).storage exE_links ∧
    isChainCycle exE_links [1, 2] ∧
    audionodes_finish_tree_update (mkState exE_storage) exE_links =
      (mkState exE_storage, [BEvent.errorLoop], false) := by
  have h0 : Reach exE_storage exE_links 0 :=
    Reach.sink 0 (mkNode true 1) rfl rfl rfl
  have h2 : Reach exE_storage exE_links 2 :=
    Reach.step ⟨2, 0, 0, 0⟩ (by decide) rfl h0
  have h1 : Reach exE_storage exE_links 1 :=
    Reach.step ⟨1, 2, 0, 0⟩ (by decide) rfl h2
  have hcyc : isChainCycle exE_links [1, 2] := by
    refine ⟨by decide, ?_⟩
    intro i hi
    have hi2 : i < 2 := by simpa using hi
    interval_cases i
    · exact ⟨⟨1, 2, 0, 0⟩, by decide, rfl, rfl⟩
    · exact ⟨⟨2, 1, 0, 0⟩, by decide, rfl, rfl⟩
  refine ⟨by unfold keysNodup storageKeys; decide, by unfold noSinkSources; decide,
    hcyc, ?_⟩
  refine @C2_cycle_reported (mkState exE_storage) exE_links
    (by unfold keysNodup storageKeys; decide) (by unfold noSinkSources; decide)
    [1, 2] hcyc ?_
  intro a ha
  rcases List.mem_cons.mp ha with h | h
  · rw [h]; exact h1
  · rw [List.mem_singleton.mp h]; exact h2

/-- C2 counterexample: the batch of `exB` has the genuine cycle `3 ↔ 4`
among nodes that reach the non-deleted sink `0`, yet the duplicate pushes
caused by the sink-sourced links `0 → 2` and `1 → 2` pad `q` past
`to_process.size()`: the build succeeds, a graph is installed and no loop
is reported. -/
theorem C2_original_counterexample :
    isChainCycle exB_links [3, 4] ∧
    (∀ a ∈ [3, 4], Reach exB_storage exB_links a) ∧
    (audionodes_finish_tree_update (mkState exB_storage) exB_links).2.2 = true ∧
    BEvent.errorLoop ∉ (audionodes_finish_tree_update (mkState exB_storage) exB_links).2.1 ∧
    (audionodes_finish_tree_update (mkState exB_storage) exB_links).1.tree ≠
      (mkState exB_storage).tree := by
  have h0 : Reach exB_storage exB_links 0 :=
    Reach.sink 0 (mkNode true 1) rfl rfl rfl
  have h3 : Reach exB_storage exB_links 3 :=
    Reach.step ⟨3, 0, 0, 0⟩ (by decide) rfl h0
  have h4 : Reach exB_storage exB_links 4 :=
    Reach.step ⟨4, 3, 0, 0⟩ (by decide) rfl h3
  refine ⟨?_, ?_, by decide, by decide, by decide⟩
  · refine ⟨by decide, ?_⟩
    intro i hi
    have hi2 : i < 2 := by simpa using hi
    interval_cases i
    · exact ⟨⟨3, 4, 0, 0⟩, by decide, rfl, rfl⟩
    · exact ⟨⟨4, 3, 0, 0⟩, by decide, rfl, rfl⟩
  · intro a ha
    rcases List.mem_cons.mp ha with h | h
    · rw [h]; exact h3
    · rw [List.mem_singleton.mp h]; exact h4

/-- C3 (confirmed): any node that cannot reach a non-deleted sink over the
batch is excluded from a successfully built graph; in the sinkless `A ↔ B`
scenario of the witness, the build succeeds with the empty schedule. -/
theorem C3_unreachable_excluded {st : EngineState} {links : List ConstructionLink}
    {nt : NodeTree} {x : Nat} (hk : keysNodup st.storage)
    (hnt : (audionodes_finish_tree_update st links).1.tree = some nt)
    (hsucc : (audionodes_finish_tree_update st links).2.2 = true)
    (hnr : ¬ Reach st.storage links x) :
    x ∉ nt.order := by
  have hb := build_of_success hnt hsucc
  have he := build_dest hb
  rw [he]
  dsimp only
  intro hmem
  rw [List.mem_reverse] at hmem
  exact hnr (tp_sound hk x (qOf_subset_tp st.storage links x hmem))

/-- C3 witness: two non-sink nodes linked `0 → 1 → 0` with no sink in the
batch: the build succeeds, the installed schedule is empty, and node `0`
is excluded. -/
theorem C3_unreachable_excluded_witness :
    keysNodup (mkState exC_storage).storage ∧
    (audionodes_finish_tree_update (mkState exC_storage) exC_links).1.tree =
      some ⟨[], []⟩ ∧
    (audionodes_finish_tree_update (mkState exC_storage) exC_links).2.2 = true ∧
    (0 : Nat) ∉ (⟨[], []⟩ : NodeTree).order := by
  refine ⟨by unfold keysNodup storageKeys; decide, by decide, by decide, ?_⟩
  exact @C3_unreachable_excluded (mkState exC_storage) exC_links ⟨[], []⟩ 0
    (by unfold keysNodup storageKeys; decide) (by decide) (by decide)
    (fun h => absurd (tp_complete (by unfold keysNodup storageKeys; decide) 0 h)
      (by unfold tpOf; decide))

/-- C4 (confirmed): a node whose `mark_deletion` flag is set when a rebuild
succeeds appears nowhere in the new evaluation order, is erased from
storage by the call, and its free event comes strictly after the install
event in the trace. -/
theorem C4_marked_deletion {st : EngineState} {links : List ConstructionLink}
    {nt : NodeTree} {id : Nat} (hk : keysNodup st.storage)
    (hdel : isDeleted st.storage id = true)
    (hnt : (audionodes_finish_tree_update st links).1.tree = some nt)
    (hsucc : (audionodes_finish_tree_update st links).2.2 = true) :
    id ∉ nt.order ∧
    lookupNode (audionodes_finish_tree_update st links).1.storage id = none ∧
    ∃ pre post, (audionodes_finish_tree_update st links).2.1 =
      pre ++ BEvent.install :: post ∧ BEvent.free id ∈ post ∧
      ∀ e ∈ pre, e ≠ BEvent.free id := by
  have hb := build_of_success hnt hsucc
  have hfin := finish_success hb
  have hmarked : id ∈ markedOf st.storage := by
    cases hl : lookupNode st.storage id with
    | none =>
      unfold isDeleted getNodeD at hdel
      rw [hl] at hdel
      simp [defaultNode] at hdel
    | some n =>
      refine mem_markedOf.mpr ⟨n, lookupNode_mem hl, ?_⟩
      unfold isDeleted getNodeD at hdel
      rw [hl] at hdel
      simpa using hdel
  refine ⟨?_, ?_, ?_⟩
  · have he := build_dest hb
    rw [he]
    dsimp only
    intro hmem
    rw [List.mem_reverse] at hmem
    have htp := qOf_subset_tp st.storage links id hmem
    have hnd := tp_not_deleted hk id htp
    rw [hdel] at hnd
    cases hnd
  · rw [hfin]
    dsimp only
    rw [lookup_erasePass, if_pos hmarked]
  · refine ⟨(connectPass st.storage nt.order).2.map BEvent.connect,
      (disconnectPass (connectPass st.storage nt.order).1).2.map BEvent.disconnect
        ++ (markedOf st.storage).map BEvent.free, ?_, ?_, ?_⟩
    · rw [hfin]
      dsimp only
      rw [List.append_assoc, List.append_assoc, List.singleton_append]
    · exact List.mem_append.mpr (Or.inr (List.mem_map.mpr ⟨id, hmarked, rfl⟩))
    · intro e he2
      rcases List.mem_map.mp he2 with ⟨a, _, hea⟩
      rw [← hea]
      intro hcontra
      cases hcontra

/-- C4 witness: node `1` of `exF` is marked; the rebuild with an empty
batch keeps it out of the schedule, erases it, and frees it only after the
install event. -/
theorem C4_marked_deletion_witness :
    keysNodup (mkState exF_storage).storage ∧
    isDeleted (mkState exF_storage).storage 1 = true ∧
    (audionodes_finish_tree_update (mkState exF_storage) []).1.tree =
      some ⟨[0], [[⟨false, 0, 0⟩]]⟩ ∧
    (audionodes_finish_tree_update (mkState exF_storage) []).2.2 = true ∧
    ((1 : Nat) ∉ (⟨[0], [[⟨false, 0, 0⟩]]⟩ : NodeTree).order ∧
     lookupNode (audionodes_finish_tree_update (mkState exF_storage) []).1.storage 1 = none ∧
     ∃ pre post, (audionodes_finish_tree_update (mkState exF_storage) []).2.1 =
       pre ++ BEvent.install :: post ∧ BEvent.free 1 ∈ post ∧
       ∀ e ∈ pre, e ≠ BEvent.free 1) := by
  refine ⟨by unfold keysNodup storageKeys; decide, by decide, by decide, by decide, ?_⟩
  exact @C4_marked_deletion (mkState exF_storage) [] ⟨[0], [[⟨false, 0, 0⟩]]⟩ 1
    (by unfold keysNodup storageKeys; decide) (by decide) (by decide) (by decide)


theorem count_install_connect (id : Nat) :
    List.count (BEvent.connect id) [BEvent.install] = 0 :=
  count_install_zero (BEvent.connect id) (fun h => by cases h)

theorem count_install_disconnect (id : Nat) :
    List.count (BEvent.disconnect id) [BEvent.install] = 0 :=
  count_install_zero (BEvent.disconnect id) (fun h => by cases h)

theorem count_disc_connect (l : List Nat) (id : Nat) :
    (l.map BEvent.disconnect).count (BEvent.connect id) = 0 :=
  count_map_eq_zero (fun a h => by cases h) l

theorem count_free_connect (l : List Nat) (id : Nat) :
    (l.map BEvent.free).count (BEvent.connect id) = 0 :=
  count_map_eq_zero (fun a h => by cases h) l

theorem count_conn_disconnect (l : List Nat) (id : Nat) :
    (l.map BEvent.connect).count (BEvent.disconnect id) = 0 :=
  count_map_eq_zero (fun a h => by cases h) l

theorem count_free_disconnect (l : List Nat) (id : Nat) :
    (l.map BEvent.free).count (BEvent.disconnect id) = 0 :=
  count_map_eq_zero (fun a h => by cases h) l

/-- C5 (confirmed): in a successful rebuild, starting from a state whose
`_tmp_connected` flags are clear (as they are outside the call), the
connect callback fires exactly once on each node of the new order whose
`mark_connected` flag was false, the disconnect callback fires exactly
once on each stored node whose flag was true and that is absent from the
new order, and afterwards a surviving node's flag is true exactly when
the node is in the new order. -/
theorem C5_callback_exactness {st : EngineState} {links : List ConstructionLink}
    {nt : NodeTree} (hk : keysNodup st.storage)
    (hv : validSources st.storage links)
    (htmp : ∀ p ∈ st.storage, p.2.tmp_connected = false)
    (hnt : (audionodes_finish_tree_update st links).1.tree = some nt)
    (hsucc : (audionodes_finish_tree_update st links).2.2 = true) :
    (∀ id, ((audionodes_finish_tree_update st links).2.1).count (BEvent.connect id) =
      if id ∈ nt.order ∧ (getNodeD st.storage id).mark_connected = false
      then 1 else 0) ∧
    (∀ id, ((audionodes_finish_tree_update st links).2.1).count (BEvent.disconnect id) =
      if id ∉ nt.order ∧ ∃ n, lookupNode st.storage id = some n ∧
          n.mark_connected = true then 1 else 0) ∧
    (∀ id n, lookupNode (audionodes_finish_tree_update st links).1.storage id = some n →
      (n.mark_connected = true ↔ id ∈ nt.order)) := by
  have hb := build_of_success hnt hsucc
  have hfin := finish_success hb
  have horder : ∀ a ∈ nt.order, a ∈ storageKeys st.storage := by
    have he := build_dest hb
    rw [he]
    dsimp only
    intro a ha
    rw [List.mem_reverse] at ha
    exact tp_subset_keys hk hv a (qOf_subset_tp st.storage links a ha)
  have hkc : keysNodup (connectPass st.storage nt.order).1 := by
    unfold keysNodup
    rw [keys_connectPass]
    exact hk
  have hmemD : ∀ id, id ∈ (disconnectPass (connectPass st.storage nt.order).1).2 ↔
      (id ∉ nt.order ∧ ∃ n, lookupNode st.storage id = some n ∧
        n.mark_connected = true) := by
    intro id
    rw [disconnectPass_events_iff _ hkc id]
    constructor
    · rintro ⟨m, hm, htm, hcm⟩
      rw [connectPass_lookup] at hm
      by_cases ho : id ∈ nt.order
      · rw [if_pos ho] at hm
        cases hl0 : lookupNode st.storage id with
        | none => rw [hl0] at hm; cases hm
        | some n0 =>
          rw [hl0, Option.map_some'] at hm
          have hinj := Option.some.inj hm
          rw [← hinj] at htm
          simp [markVisit] at htm
      · rw [if_neg ho] at hm
        exact ⟨ho, m, hm, hcm⟩
    · rintro ⟨ho, n, hn, hcn⟩
      refine ⟨n, ?_, htmp (id, n) (lookupNode_mem hn), hcn⟩
      rw [connectPass_lookup, if_neg ho]
      exact hn
  refine ⟨?_, ?_, ?_⟩
  · intro id
    rw [hfin]
    dsimp only
    rw [List.count_append, List.count_append, List.count_append,
      count_map_eq (fun a b h => BEvent.connect.inj h) _ id,
      count_install_connect, count_disc_connect, count_free_connect,
      connectPass_events_count st.storage nt.order id horder]
    simp
  · intro id
    rw [hfin]
    dsimp only
    rw [List.count_append, List.count_append, List.count_append,
      count_conn_disconnect, count_install_disconnect,
      count_map_eq (fun a b h => BEvent.disconnect.inj h) _ id,
      count_free_disconnect]
    by_cases hmem : id ∈ (disconnectPass (connectPass st.storage nt.order).1).2
    · rw [List.count_eq_one_of_mem (disconnectPass_events_nodup _ hkc) hmem,
        if_pos ((hmemD id).mp hmem)]
    · rw [List.count_eq_zero_of_not_mem hmem,
        if_neg (fun hc => hmem ((hmemD id).mpr hc))]
  · intro id n hln
    rw [hfin] at hln
    dsimp only at hln
    rw [lookup_erasePass] at hln
    by_cases hmk : id ∈ markedOf st.storage
    · rw [if_pos hmk] at hln
      cases hln
    · rw [if_neg hmk, lookup_disconnectPass, connectPass_lookup] at hln
      by_cases ho : id ∈ nt.order
      · rw [if_pos ho] at hln
        cases hl0 : lookupNode st.storage id with
        | none => rw [hl0] at hln; cases hln
        | some n0 =>
          rw [hl0, Option.map_some', Option.map_some'] at hln
          have hinj := Option.some.inj hln
          rw [← hinj]
          simp [dcUpdate, markVisit, ho]
      · rw [if_neg ho] at hln
        cases hl0 : lookupNode st.storage id with
        | none => rw [hl0] at hln; cases hln
        | some n0 =>
          rw [hl0, Option.map_some'] at hln
          have hinj := Option.some.inj hln
          have htm0 : n0.tmp_connected = false := htmp (id, n0) (lookupNode_mem hl0)
          rw [← hinj]
          simp [dcUpdate, htm0, ho]

/-- C5 witness: the callback scenario `exI` (link `1 → 0`, node `2`
connected but unreachable in the new graph) checked at its concrete
input. -/
theorem C5_callback_exactness_witness :
    keysNodup (mkState exI_storage).storage ∧
    validSources (mkState exI_storage).storage exI_links ∧
    (∀ p ∈ (mkState exI_storage).storage, p.2.tmp_connected = false) ∧
    (audionodes_finish_tree_update (mkState exI_storage) exI_links).1.tree =
      some ⟨[1, 0], [[], [⟨true, 0, 0⟩]]⟩ ∧
    (audionodes_finish_tree_update (mkState exI_storage) exI_links).2.2 = true ∧
    ((∀ id, ((audionodes_finish_tree_update (mkState exI_storage) exI_links).2.1).count
        (BEvent.connect id) =
      if id ∈ (⟨[1, 0], [[], [⟨true, 0, 0⟩]]⟩ : NodeTree).order ∧
          (getNodeD (mkState exI_storage).storage id).mark_connected = false
      then 1 else 0) ∧
    (∀ id, ((audionodes_finish_tree_update (mkState exI_storage) exI_links).2.1).count
        (BEvent.disconnect id) =
      if id ∉ (⟨[1, 0], [[], [⟨true, 0, 0⟩]]⟩ : NodeTree).order ∧
          ∃ n, lookupNode (mkState exI_storage).storage id = some n ∧
            n.mark_connected = true then 1 else 0) ∧
    (∀ id n, lookupNode
        (audionodes_finish_tree_update (mkState exI_storage) exI_links).1.storage id =
        some n →
      (n.mark_connected = true ↔
        id ∈ (⟨[1, 0], [[], [⟨true, 0, 0⟩]]⟩ : NodeTree).order))) := by
  refine ⟨by unfold keysNodup storageKeys; decide,
    by unfold validSources storageKeys; decide, by decide, by decide, by decide, ?_⟩
  exact @C5_callback_exactness (mkState exI_storage) exI_links
    ⟨[1, 0], [[], [⟨true, 0, 0⟩]]⟩ (by unfold keysNodup storageKeys; decide)
    (by unfold validSources storageKeys; decide) (by decide) (by decide) (by decide)

/-- C6 (corrected): the sample conversion clamps to −32768 only strictly
below −1 (at −1 itself it yields −32767, not the claimed −32768), clamps
to 32767 from 1 upwards, truncates the value scaled by 32767 in between,
and always stays within the 16-bit output range; the claimed block
converts with −32767 — not the minimum — in its second slot. -/
theorem C6_sample_conversion (v : ℚ) :
    sample_to_output v =
      (if v < -1 then minimum_value else if 1 ≤ v then maximum_value
        else truncToInt (v * 32767)) ∧
    minimum_value ≤ sample_to_output v ∧
    sample_to_output v ≤ maximum_value ∧
    sample_to_output (-1) = -32767 ∧
    block_to_output exG_block = [-32768, -32767, 0, 16383, 32767, 32767] :=
  ⟨rfl, (sample_range v).1, (sample_range v).2, sample_at_neg_one, block_exG⟩

/-- C6 counterexample: the claim maps −1 to the format minimum −32768, but
the code clamps only for values strictly below −1, so −1 converts to
−32767. -/
theorem C6_original_counterexample :
    ((-1 : ℚ) ≤ -1) ∧ sample_to_output (-1) ≠ minimum_value ∧
    sample_to_output (-1) = -32767 ∧ minimum_value = -32768 := by
  refine ⟨le_refl _, ?_, sample_at_neg_one, rfl⟩
  rw [sample_at_neg_one]
  unfold minimum_value
  decide

/-- C7 (corrected): on an identifier absent from `node_storage` the
remove, exists, input-update, property-update and binary-data operations
report the unknown id and leave the state unchanged; but `copy_node` is
not a no-op: with a registered type it first creates the new node,
advancing the uid counter, and then dereferences the null entry freshly
default-inserted for the unknown source — undefined behaviour, with no
unknown-id report on the way. -/
theorem C7_unknown_id_noop {st : EngineState} {id : Nat}
    (h : lookupNode st.storage id = none) :
    audionodes_remove_node st id = (st, [OEvent.report_unknown id]) ∧
    audionodes_node_exists st id = false ∧
    (∀ k v, audionodes_update_node_input_value st id k v =
      (st, [OEvent.report_unknown id])) ∧
    (∀ k v, audionodes_update_node_property_value st id k v =
      (st, [OEvent.report_unknown id])) ∧
    (∀ k len, audionodes_send_node_binary_data st id k len =
      (st, [OEvent.report_unknown id])) ∧
    (∀ type proto, st.node_types.find? (fun p => p.1 == type) = some proto →
      (audionodes_copy_node st id type).2.1 = CopyOutcome.crashed ∧
      OEvent.ub_deref id ∈ (audionodes_copy_node st id type).2.2 ∧
      (audionodes_copy_node st id type).1.counter = st.counter + 1) := by
  refine ⟨?_, ?_, ?_, ?_, ?_, ?_⟩
  · unfold audionodes_remove_node
    rw [h]
    rfl
  · unfold audionodes_node_exists
    rw [h]
    rfl
  · intro k v
    unfold audionodes_update_node_input_value
    rw [h]
    rfl
  · intro k v
    unfold audionodes_update_node_property_value
    rw [h]
    rfl
  · intro k len
    unfold audionodes_send_node_binary_data
    rw [h]
    rfl
  · intro type proto hfind
    have hc : audionodes_create_node st type =
        (⟨storageInsert st.counter proto.2 st.storage, st.counter + 1, st.tree,
           st.queue, st.node_types⟩, some st.counter, []) := by
      unfold audionodes_create_node
      rw [hfind]
      rfl
    have hcopy : audionodes_copy_node st id type =
        ((audionodes_create_node st type).1, CopyOutcome.crashed,
          [OEvent.ub_deref id]) := by
      unfold audionodes_copy_node
      rw [hc, h]
    rw [hcopy, hc]
    exact ⟨rfl, List.mem_singleton.mpr rfl, rfl⟩

/-- C7 witness: the unknown id `5` against `exH_state`, whose registry
holds the type `"osc"`. -/
theorem C7_unknown_id_noop_witness :
    lookupNode exH_state.storage 5 = none ∧
    (audionodes_remove_node exH_state 5 = (exH_state, [OEvent.report_unknown 5]) ∧
    audionodes_node_exists exH_state 5 = false ∧
    (∀ k v, audionodes_update_node_input_value exH_state 5 k v =
      (exH_state, [OEvent.report_unknown 5])) ∧
    (∀ k v, audionodes_update_node_property_value exH_state 5 k v =
      (exH_state, [OEvent.report_unknown 5])) ∧
    (∀ k len, audionodes_send_node_binary_data exH_state 5 k len =
      (exH_state, [OEvent.report_unknown 5])) ∧
    (∀ type proto, exH_state.node_types.find? (fun p => p.1 == type) = some proto →
      (audionodes_copy_node exH_state 5 type).2.1 = CopyOutcome.crashed ∧
      OEvent.ub_deref 5 ∈ (audionodes_copy_node exH_state 5 type).2.2 ∧
      (audionodes_copy_node exH_state 5 type).1.counter = exH_state.counter + 1)) :=
  ⟨by decide, @C7_unknown_id_noop exH_state 5 (by decide)⟩

/-- C7 counterexample: copying from the unknown id `5` is not a no-op: it
creates node `100`, advances the counter, reaches the null dereference and
never reports an unknown id. -/
theorem C7_original_counterexample :
    lookupNode exH_state.storage 5 = none ∧
    exH_state.counter = 100 ∧
    (audionodes_copy_node exH_state 5 "osc").1.counter = 101 ∧
    lookupNode (audionodes_copy_node exH_state 5 "osc").1.storage 100 =
      some (mkNode false 0) ∧
    (audionodes_copy_node exH_state 5 "osc").2.1 = CopyOutcome.crashed ∧
    OEvent.report_unknown 5 ∉ (audionodes_copy_node exH_state 5 "osc").2.2 := by
  refine ⟨by decide, by decide, by decide, by decide, by decide, by decide⟩

/-- C8 (confirmed): for a message to a connected node, `send_message`
sleeps one block-period per retry at most 10 times; if the queue is still
full it drops the message, reports the failure and frees an owned binary
payload, leaving the queue untouched; otherwise it pushes the message; it
never drops without reporting. -/
theorem C8_send_message_bounded (fullAt : Nat → Bool) (st : EngineState) (msg : Message)
    (hconn : (getNodeD st.storage msg.node).mark_connected = true) :
    sleepCount fullAt ≤ 10 ∧
    (fullAt (sleepCount fullAt) = true →
      send_message fullAt st msg =
        (st, List.replicate (sleepCount fullAt) OEvent.sleep
          ++ [OEvent.report_queue_full]
          ++ (if hasBinary msg then [OEvent.free_binary] else []))) ∧
    (fullAt (sleepCount fullAt) = false →
      send_message fullAt st msg =
        (⟨st.storage, st.counter, st.tree, st.queue ++ [msg], st.node_types⟩,
         List.replicate (sleepCount fullAt) OEvent.sleep)) ∧
    ((send_message fullAt st msg).1.queue ≠ st.queue ++ [msg] →
      OEvent.report_queue_full ∈ (send_message fullAt st msg).2) := by
  have hlen : sleepCount fullAt ≤ 10 := by
    unfold sleepCount
    have hs := List.Sublist.length_le (List.takeWhile_sublist (l := List.range 10) fullAt)
    simpa using hs
  have hfull : fullAt (sleepCount fullAt) = true →
      send_message fullAt st msg =
        (st, List.replicate (sleepCount fullAt) OEvent.sleep
          ++ [OEvent.report_queue_full]
          ++ (if hasBinary msg then [OEvent.free_binary] else [])) := by
    intro hf
    unfold send_message
    rw [hconn, hf]
    simp
  have hpush : fullAt (sleepCount fullAt) = false →
      send_message fullAt st msg =
        (⟨st.storage, st.counter, st.tree, st.queue ++ [msg], st.node_types⟩,
         List.replicate (sleepCount fullAt) OEvent.sleep) := by
    intro hf
    unfold send_message
    rw [hconn, hf]
    simp
  refine ⟨hlen, hfull, hpush, ?_⟩
  intro hq
  cases hfb : fullAt (sleepCount fullAt) with
  | true =>
    rw [hfull hfb]
    dsimp only
    refine List.mem_append.mpr (Or.inl (List.mem_append.mpr (Or.inr ?_)))
    exact List.mem_singleton.mpr rfl
  | false =>
    rw [hpush hfb] at hq
    exact absurd rfl hq

/-- C8 witness: the always-full oracle against the connected node `0`: ten
sleeps, then a reported drop that leaves the queue unchanged. -/
theorem C8_send_message_bounded_witness :
    (getNodeD exH_state.storage exMsg.node).mark_connected = true ∧
    (sleepCount alwaysFull ≤ 10 ∧
    (alwaysFull (sleepCount alwaysFull) = true →
      send_message alwaysFull exH_state exMsg =
        (exH_state, List.replicate (sleepCount alwaysFull) OEvent.sleep
          ++ [OEvent.report_queue_full]
          ++ (if hasBinary exMsg then [OEvent.free_binary] else []))) ∧
    (alwaysFull (sleepCount alwaysFull) = false →
      send_message alwaysFull exH_state exMsg =
        (⟨exH_state.storage, exH_state.counter, exH_state.tree,
           exH_state.queue ++ [exMsg], exH_state.node_types⟩,
         List.replicate (sleepCount alwaysFull) OEvent.sleep)) ∧
    ((send_message alwaysFull exH_state exMsg).1.queue ≠
        exH_state.queue ++ [exMsg] →
      OEvent.report_queue_full ∈ (send_message alwaysFull exH_state exMsg).2)) :=
  ⟨by decide, @C8_send_message_bounded alwaysFull exH_state exMsg (by decide)⟩

/-- C9 (confirmed): when the build fails the whole call is atomic: the
returned state is the input state — storage, active graph pointer, queue
and counter included — the only event is the loop report, and no connect,
disconnect or free event is emitted. -/
theorem C9_failure_atomic {st : EngineState} {links : List ConstructionLink}
    (hfail : buildResult st.storage links = none) :
    audionodes_finish_tree_update st links = (st, [BEvent.errorLoop], false) ∧
    (audionodes_finish_tree_update st links).1 = st ∧
    (∀ id, BEvent.connect id ∉ (audionodes_finish_tree_update st links).2.1) ∧
    (∀ id, BEvent.disconnect id ∉ (audionodes_finish_tree_update st links).2.1) ∧
    (∀ id, BEvent.free id ∉ (audionodes_finish_tree_update st links).2.1) := by
  have hf := finish_fail hfail
  refine ⟨hf, by rw [hf], ?_, ?_, ?_⟩
  · intro id hmem
    rw [hf] at hmem
    dsimp only at hmem
    have h2 := List.mem_singleton.mp hmem
    cases h2
  · intro id hmem
    rw [hf] at hmem
    dsimp only at hmem
    have h2 := List.mem_singleton.mp hmem
    cases h2
  · intro id hmem
    rw [hf] at hmem
    dsimp only at hmem
    have h2 := List.mem_singleton.mp hmem
    cases h2

/-- C9 witness: the failing cycle `1 ↔ 2` of `exE` checked at its concrete
input. -/
theorem C9_failure_atomic_witness :
    buildResult (mkState exE_storage).storage exE_links = none ∧
    (audionodes_finish_tree_update (mkState exE_storage) exE_links =
      (mkState exE_storage, [BEvent.errorLoop], false) ∧
    (audionodes_finish_tree_update (mkState exE_storage) exE_links).1 =
      mkState exE_storage ∧
    (∀ id, BEvent.connect id ∉
      (audionodes_finish_tree_update (mkState exE_storage) exE_links).2.1) ∧
    (∀ id, BEvent.disconnect id ∉
      (audionodes_finish_tree_update (mkState exE_storage) exE_links).2.1) ∧
    (∀ id, BEvent.free id ∉
      (audionodes_finish_tree_update (mkState exE_storage) exE_links).2.1)) :=
  ⟨by decide, @C9_failure_atomic (mkState exE_storage) exE_links (by decide)⟩

/-- C10 (confirmed): removing a stored node only sets its `mark_deletion`
flag: the events are empty, the counter, graph, queue and type registry
are untouched, every other storage entry is unchanged, the keys are
preserved, the node still exists for the exists query, and the updated
node differs from the old one only in `mark_deletion`. -/
theorem C10_remove_only_marks {st : EngineState} {id : Nat} {n : Node}
    (h : lookupNode st.storage id = some n) :
    audionodes_remove_node st id =
      (⟨updateNode st.storage id setDeletion, st.counter, st.tree, st.queue,
         st.node_types⟩, []) ∧
    lookupNode (audionodes_remove_node st id).1.storage id = some (setDeletion n) ∧
    (∀ j, j ≠ id →
      lookupNode (audionodes_remove_node st id).1.storage j = lookupNode st.storage j) ∧
    storageKeys (audionodes_remove_node st id).1.storage = storageKeys st.storage ∧
    audionodes_node_exists (audionodes_remove_node st id).1 id = true ∧
    setDeletion n = ⟨n.is_sink, n.input_count, true, n.mark_connected,
      n.tmp_connected, n.applied⟩ := by
  have hrem : audionodes_remove_node st id =
      (⟨updateNode st.storage id setDeletion, st.counter, st.tree, st.queue,
         st.node_types⟩, []) := by
    unfold audionodes_remove_node
    rw [h]
    rfl
  refine ⟨hrem, ?_, ?_, ?_, ?_, rfl⟩
  · rw [hrem]
    dsimp only
    rw [lookup_updateNode, if_pos rfl, h]
    rfl
  · intro j hj
    rw [hrem]
    dsimp only
    rw [lookup_updateNode, if_neg hj]
  · rw [hrem]
    dsimp only
    exact keys_updateNode _ _ _
  · rw [hrem]
    unfold audionodes_node_exists
    dsimp only
    rw [lookup_updateNode, if_pos rfl, h]
    rfl

/-- C10 witness: removing the stored node `0` of `exH_state`. -/
theorem C10_remove_only_marks_witness :
    lookupNode exH_state.storage 0 = some (mkConnected false 1) ∧
    (audionodes_remove_node exH_state 0 =
      (⟨updateNode exH_state.storage 0 setDeletion, exH_state.counter,
         exH_state.tree, exH_state.queue, exH_state.node_types⟩, []) ∧
    lookupNode (audionodes_remove_node exH_state 0).1.storage 0 =
      some (setDeletion (mkConnected false 1)) ∧
    (∀ j, j ≠ 0 →
      lookupNode (audionodes_remove_node exH_state 0).1.storage j =
        lookupNode exH_state.storage j) ∧
    storageKeys (audionodes_remove_node exH_state 0).1.storage =
      storageKeys exH_state.storage ∧
    audionodes_node_exists (audionodes_remove_node exH_state 0).1 0 = true ∧
    setDeletion (mkConnected false 1) =
      ⟨(mkConnected false 1).is_sink, (mkConnected false 1).input_count, true,
        (mkConnected false 1).mark_connected, (mkConnected false 1).tmp_connected,
        (mkConnected false 1).applied⟩) :=
  ⟨by decide, @C10_remove_only_marks exH_state 0 (mkConnected false 1) (by decide)⟩


end Audionodes
